import Mathlib

/-!
# Verification of `tree.cpp`

A shallow embedding of the directory lister and tree walker of `src/tree.cpp`.

* A `std::string` is the sequence of its bytes (`Str`), each byte a natural number below 256.
* The file system is a record of the answers of the system calls the program makes
  (`stat`, `lstat`, `readlink`, `opendir`/`readdir`, `access`), keyed by the path handed to them.
  It does not change during a run, so a call repeated on one path gives one answer.
* Standard output is the list of the lines written, each with its final newline byte; `main`
  joins them behind the line of the starting path.
* `int depth` is an integer; a walk cannot go deep enough to overflow it.
* `print_tree` recurses on directories found at run time, so its embedding takes a fuel
  argument; a traversal that runs out of fuel is reported as `Fault.out_of_fuel`.
* Reading `is_last[i]` out of bounds or `is_last.back()` of an empty vector is undefined
  behaviour in C++ and is reported as `Fault.undefined_behaviour`.
-/

namespace Tree

/-! ## Strings -/

/-- A `std::string`: the sequence of its bytes. -/
abbrev Str := List Nat

/-- The byte of `/`. -/
def slash : Str := [47]

/-- The one-byte string `"\n"`. -/
def newline : Str := [10]

/-- The string `"."`. -/
def dot : Str := [46]

/-- The string `".."`. -/
def dotdot : Str := [46, 46]

/-- The string `" -> "`. -/
def arrow : Str := [32, 45, 62, 32]

/-- The string `"    "` (four spaces). -/
def four_spaces : Str := [32, 32, 32, 32]

/-- The string `"│   "`: U+2502 in UTF-8, then three spaces. -/
def bar_segment : Str := [0xE2, 0x94, 0x82, 32, 32, 32]

/-- The string `"└── "`: U+2514, U+2500, U+2500 in UTF-8, then a space. -/
def last_connector : Str := [0xE2, 0x94, 0x94, 0xE2, 0x94, 0x80, 0xE2, 0x94, 0x80, 32]

/-- The string `"├── "`: U+251C, U+2500, U+2500 in UTF-8, then a space. -/
def mid_connector : Str := [0xE2, 0x94, 0x9C, 0xE2, 0x94, 0x80, 0xE2, 0x94, 0x80, 32]

/-- The string `"\033[1;34m"`. -/
def blue : Str := [27, 91, 49, 59, 51, 52, 109]

/-- The string `"\033[0m"`. -/
def reset : Str := [27, 91, 48, 109]

/-- The bytes of an ASCII string literal. -/
def ascii (s : String) : Str := s.toList.map Char.toNat

/-- `operator<` of `std::string`: the bytes are compared as unsigned values from the front,
the first difference decides, and a proper prefix is smaller. -/
def string_lt : Str → Str → Bool
  | [], [] => false
  | [], _ :: _ => true
  | _ :: _, [] => false
  | a :: as, b :: bs => if a < b then true else if b < a then false else string_lt as bs

/-! ## The file system as seen through the system calls -/

/-- The file types told apart by `S_ISDIR` and `S_ISLNK`. -/
inductive FileType where
  | regular
  | directory
  | symlink
  | other
  deriving DecidableEq, Repr

/-- The answers of the system calls used by the program.
`stat` follows symbolic links and `lstat` does not; both give `none` when the call fails.
`readlink` gives the whole target of a link, or `none` when the call fails.
`readdir` gives `none` when `opendir` fails, else the names that `readdir` yields, in its
order, the entries `.` and `..` included. `access` tells whether `access(path, F_OK)` is 0. -/
structure FileSystem where
  stat : Str → Option FileType
  lstat : Str → Option FileType
  readlink : Str → Option Str
  readdir : Str → Option (List Str)
  access : Str → Bool

structure TreeOptions where
  show_hidden : Bool
  dir_only : Bool
  full_path : Bool
  max_depth : Int
  start_path : Str

/-- What stops the embedded program short of a result. -/
inductive Fault where
  | out_of_fuel
  | undefined_behaviour
  deriving DecidableEq, Repr

deriving instance DecidableEq for Except

def is_directory (fs : FileSystem) (path : Str) : Bool :=
  match fs.stat path with
  | none => false
  | some t => t == FileType.directory

def is_symlink (fs : FileSystem) (path : Str) : Bool :=
  match fs.lstat path with
  | none => false
  | some t => t == FileType.symlink

/-- The buffer holds 1024 bytes and `readlink` is given room for 1023 of them, so a longer
target is cut; `std::string(buf)` then stops at the first zero byte. -/
def read_symlink (fs : FileSystem) (path : Str) : Str :=
  match fs.readlink path with
  | none => []
  | some target => (target.take 1023).takeWhile (fun b => b != 0)

def is_dir_entry (fs : FileSystem) (base name : Str) : Bool :=
  let full_path := base ++ slash ++ name
  is_directory fs full_path

def compare_entries (fs : FileSystem) (a b base : Str) : Bool :=
  let a_is_dir := is_dir_entry fs base a
  let b_is_dir := is_dir_entry fs base b
  if a_is_dir != b_is_dir then
    a_is_dir && !b_is_dir
  else
    string_lt a b

/-! ## The lister -/

/-- The `readdir` loop of `get_directory_entries`: the names kept, in the order read.
`name[0]` of an empty `std::string` is the zero byte. -/
def read_entries (show_hidden : Bool) : List Str → List Str
  | [] => []
  | name :: rest =>
    if name == dot || name == dotdot then read_entries show_hidden rest
    else if !show_hidden && name.headD 0 == 46 then read_entries show_hidden rest
    else name :: read_entries show_hidden rest

/-- `std::swap(entries[i], entries[j])`. -/
def swap_entries (entries : List Str) (i j : Nat) : List Str :=
  (entries.set i (entries.getD j [])).set j (entries.getD i [])

/-- The body of the inner loop of the sort. -/
def sort_step (fs : FileSystem) (path : Str) (i : Nat) (entries : List Str) (j : Nat) : List Str :=
  if compare_entries fs (entries.getD j []) (entries.getD i []) path then swap_entries entries i j
  else entries

/-- One pass of the inner loop of the sort, `j` from `i + 1` up to `entries.size()`. -/
def sort_inner (fs : FileSystem) (path : Str) (i : Nat) (entries : List Str) : List Str :=
  (List.range' (i + 1) (entries.length - (i + 1))).foldl (sort_step fs path i) entries

/-- The two nested loops that sort the entries. -/
def sort_entries (fs : FileSystem) (path : Str) (entries : List Str) : List Str :=
  (List.range entries.length).foldl (fun es i => sort_inner fs path i es) entries

def get_directory_entries (fs : FileSystem) (path : Str) (show_hidden : Bool) : List Str :=
  match fs.readdir path with
  | none => []
  | some names => sort_entries fs path (read_entries show_hidden names)

/-! ## The walker -/

/-- The prefix of a line. The loop bound `is_last.size() - 1` is unsigned: on an empty vector it
wraps around and the loop and `is_last.back()` read out of bounds. -/
def get_tree_prefix (is_last : List Bool) (is_dir : Bool) : Except Fault Str :=
  if is_last.isEmpty then
    .error .undefined_behaviour
  else
    let pre := (List.range (is_last.length - 1)).foldl
      (fun acc i => acc ++ (if is_last.getD i false then four_spaces else bar_segment)) []
    let pre := pre ++ (if is_last.getLastD false then last_connector else mid_connector)
    .ok (if is_dir then blue ++ pre ++ reset else pre)

/-- The state of the loop of `print_tree`: the vector `is_last` and the lines written so far. -/
abbrev WalkState := List Bool × List Str

/-- The recursive call of `print_tree`, as seen from the loop body: from the path, the vector
handed over by value and the depth, to the lines the call writes. -/
abbrev Walker := Str → List Bool → Int → Except Fault (List Str)

/-- The body of the `for` loop of `print_tree` at index `i`; `recurse` is the recursive call.
`is_last.back() = v` replaces the final element and `pop_back` drops it. Inside the loop
`entries.size()` is at least 1, so `entries.size() - 1` does not wrap around. -/
def print_entry (fs : FileSystem) (options : TreeOptions) (recurse : Walker)
    (path : Str) (depth : Int) (entries : List Str) (i : Nat) (st : WalkState) :
    Except Fault WalkState :=
  let is_last := st.1
  let out := st.2
  let entry := entries.getD i []
  let full_path := path ++ slash ++ entry
  let entry_is_dir := is_directory fs full_path
  if options.dir_only && !entry_is_dir then
    .ok (is_last, out)
  else
    let is_last :=
      if !is_last.isEmpty then is_last.dropLast ++ [decide (i = entries.length - 1)]
      else is_last ++ [decide (i = entries.length - 1)]
    let display_name := if options.full_path then full_path else entry
    let display_name :=
      if is_symlink fs full_path then display_name ++ (arrow ++ read_symlink fs full_path)
      else display_name
    match get_tree_prefix is_last entry_is_dir with
    | .error e => .error e
    | .ok pre =>
      let out := out ++ [pre ++ display_name ++ newline]
      if entry_is_dir && !is_symlink fs full_path then
        let is_last := is_last ++ [true]
        match recurse full_path is_last (depth + 1) with
        | .error e => .error e
        | .ok sub => .ok (is_last.dropLast, out ++ sub)
      else
        .ok (is_last, out)

/-- The `for` loop of `print_tree` over the indices still to visit. -/
def print_entries (fs : FileSystem) (options : TreeOptions) (recurse : Walker)
    (path : Str) (depth : Int) (entries : List Str) : List Nat → WalkState → Except Fault WalkState
  | [], st => .ok st
  | i :: rest, st =>
    match print_entry fs options recurse path depth entries i st with
    | .error e => .error e
    | .ok st1 => print_entries fs options recurse path depth entries rest st1

/-- The body of `print_tree`, with the recursive call as a parameter. -/
def print_tree_body (fs : FileSystem) (options : TreeOptions) (recurse : Walker) : Walker :=
  fun path is_last depth =>
    if options.max_depth != -1 && depth > options.max_depth then
      .ok []
    else
      let entries := get_directory_entries fs path options.show_hidden
      match print_entries fs options recurse path depth entries (List.range entries.length)
          (is_last, []) with
      | .error e => .error e
      | .ok st => .ok st.2

/-- The lines written by `print_tree`. Every nested call uses up one unit of fuel. -/
def print_tree (fs : FileSystem) (options : TreeOptions) : Nat → Walker
  | 0 => fun _ _ _ => .error .out_of_fuel
  | fuel + 1 => print_tree_body fs options (print_tree fs options fuel)

def print_tree_wrapper (fs : FileSystem) (options : TreeOptions) (fuel : Nat) (path : Str) :
    Except Fault (List Str) :=
  print_tree fs options fuel path [] 0

/-- What a run leaves behind: the exit status and the bytes on the two streams. -/
structure Outcome where
  status : Int
  stdout : Str
  stderr : Str
  deriving DecidableEq, Repr

/-- The part of `main` after the option loop: `options` holds the parsed options and the
starting path. -/
def main (fs : FileSystem) (options : TreeOptions) (fuel : Nat) : Except Fault Outcome :=
  if !fs.access options.start_path then
    .ok { status := 1, stdout := [],
          stderr := ascii "Error: Path '" ++ options.start_path ++ ascii "' does not exist.\n" }
  else
    match print_tree_wrapper fs options fuel options.start_path with
    | .error e => .error e
    | .ok lines =>
      .ok { status := 0, stdout := options.start_path ++ newline ++ lines.flatten, stderr := [] }

/-! ## Notions used to state the properties -/

/-- A name that passes the filter of the lister: not `.`, not `..`, and not beginning with a dot
unless hidden entries are shown. -/
def qualifies (show_hidden : Bool) (name : Str) : Bool :=
  name != dot && name != dotdot && (show_hidden || !(name.head? == some 46))

/-- The continuation segment for an ancestor: four spaces below a last child, else a bar. -/
def segment (last : Bool) : Str := if last then four_spaces else bar_segment

/-- The connector in front of an entry. -/
def connector (last : Bool) : Str := if last then last_connector else mid_connector

/-- What the inner loop of the sort has established after `k` rounds at outer index `i`,
started on `es` and now holding `es1`. -/
structure InnerInv (fs : FileSystem) (path : Str) (i k : Nat) (es es1 : List Str) : Prop where
  length_eq : es1.length = es.length
  perm : es1.Perm es
  front : ∀ a, a < i → es1.getD a [] = es.getD a []
  least : ∀ b, i < b → b < i + 1 + k →
    compare_entries fs (es1.getD b []) (es1.getD i []) path = false
  back : ∀ b, i ≤ b → b < es.length → ∃ c, i ≤ c ∧ c < es.length ∧ es1.getD b [] = es.getD c []

/-- What the outer loop of the sort has established after `i` rounds. -/
structure OuterInv (fs : FileSystem) (path : Str) (i : Nat) (es es1 : List Str) : Prop where
  length_eq : es1.length = es.length
  perm : es1.Perm es
  ordered : ∀ a b, a < i → a < b → b < es.length →
    compare_entries fs (es1.getD b []) (es1.getD a []) path = false

/-! ## The lines of the walker -/

/-- The name shown for an entry of the directory `path`: the bare name, or the path from the
starting path in full-path mode, followed by the arrow and the target for a symbolic link. -/
def display_name (fs : FileSystem) (options : TreeOptions) (path entry : Str) : Str :=
  (if options.full_path then path ++ slash ++ entry else entry) ++
    (if is_symlink fs (path ++ slash ++ entry) then arrow ++ read_symlink fs (path ++ slash ++ entry)
     else [])

/-- The colour sequences around the prefix of a directory entry. -/
def colour (is_dir : Bool) (pre : Str) : Str := if is_dir then blue ++ pre ++ reset else pre

/-- The line of the entry `entry` of the directory `path`: one segment per ancestor flag in
`anc`, the connector for `last`, the name shown, and a newline. -/
def entry_line (fs : FileSystem) (options : TreeOptions) (path : Str) (anc : List Bool)
    (entry : Str) (last : Bool) : Str :=
  colour (is_directory fs (path ++ slash ++ entry))
      ((anc.map segment).flatten ++ connector last) ++
    display_name fs options path entry ++ newline

/-- The lines that the loop body of `print_tree` adds at index `i`, when all elements of
`is_last` but its final one are `anc`. -/
def entry_lines (fs : FileSystem) (options : TreeOptions) (recurse : Walker)
    (path : Str) (depth : Int) (entries : List Str) (anc : List Bool) (i : Nat) :
    Except Fault (List Str) :=
  let entry := entries.getD i []
  let full_path := path ++ slash ++ entry
  let last := decide (i = entries.length - 1)
  if options.dir_only && !is_directory fs full_path then
    .ok []
  else if is_directory fs full_path && !is_symlink fs full_path then
    match recurse full_path (anc ++ [last] ++ [true]) (depth + 1) with
    | .error e => .error e
    | .ok sub => .ok (entry_line fs options path anc entry last :: sub)
  else
    .ok [entry_line fs options path anc entry last]

/-- The lines that the loop of `print_tree` adds over the indices given. -/
def entries_lines (fs : FileSystem) (options : TreeOptions) (recurse : Walker)
    (path : Str) (depth : Int) (entries : List Str) (anc : List Bool) :
    List Nat → Except Fault (List Str)
  | [] => .ok []
  | i :: rest =>
    match entry_lines fs options recurse path depth entries anc i with
    | .error e => .error e
    | .ok here =>
      match entries_lines fs options recurse path depth entries anc rest with
      | .error e => .error e
      | .ok others => .ok (here ++ others)

/-! ## The reference walker -/

/-- The recursive visit of the reference walker: from the path of a directory and the
last-sibling flags of its ancestors to the lines below it. -/
abbrev Renderer := Str → List Bool → Except Fault (List Str)

/-- The reference walker at the displayed entry of index `i` (steps 4 to 7 of the recursion of
the Tree Walker): the entry is last iff `i` is the final index of the displayed set; its line
has one segment per ancestor and its own connector; a directory that is not a symbolic link
is then visited with the flags extended by the entry's own flag. -/
def render_entry (fs : FileSystem) (options : TreeOptions) (visit : Renderer)
    (path : Str) (anc : List Bool) (shown : List Str) (i : Nat) : Except Fault (List Str) :=
  let entry := shown.getD i []
  let last := decide (i = shown.length - 1)
  let line := entry_line fs options path anc entry last
  if is_directory fs (path ++ slash ++ entry) && !is_symlink fs (path ++ slash ++ entry) then
    match visit (path ++ slash ++ entry) (anc ++ [last]) with
    | .error e => .error e
    | .ok below => .ok (line :: below)
  else
    .ok [line]

/-- The reference walker over the indices given of the displayed set. -/
def render_entries (fs : FileSystem) (options : TreeOptions) (visit : Renderer)
    (path : Str) (anc : List Bool) (shown : List Str) : List Nat → Except Fault (List Str)
  | [] => .ok []
  | i :: rest =>
    match render_entry fs options visit path anc shown i with
    | .error e => .error e
    | .ok here =>
      match render_entries fs options visit path anc shown rest with
      | .error e => .error e
      | .ok others => .ok (here ++ others)

/-- The displayed set of a directory (steps 2 and 3): the entries of the lister, without the
non-directories when only directories are listed. -/
def displayed (fs : FileSystem) (options : TreeOptions) (path : Str) : List Str :=
  if options.dir_only then
    (get_directory_entries fs path options.show_hidden).filter
      (fun entry => is_directory fs (path ++ slash ++ entry))
  else
    get_directory_entries fs path options.show_hidden

/-- The reference walker for a directory at the depth `anc.length`, with the last-sibling
flags `anc` of its ancestors (the recursion of the Tree Walker, steps 1 to 7). -/
def render (fs : FileSystem) (options : TreeOptions) : Nat → Renderer
  | 0 => fun _ _ => .error .out_of_fuel
  | fuel + 1 => fun path anc =>
    if options.max_depth != -1 && (anc.length : Int) > options.max_depth then
      .ok []
    else
      render_entries fs options (render fs options fuel) path anc (displayed fs options path)
        (List.range (displayed fs options path).length)

/-! ## Walks used to state the depth limit, the links and the filter -/

/-- The body of `print_tree` after the depth check: the directory is listed and every entry
handled, with `recurse` for the recursive call. -/
def list_directory (fs : FileSystem) (options : TreeOptions) (recurse : Walker) : Walker :=
  fun path is_last depth =>
    let entries := get_directory_entries fs path options.show_hidden
    match print_entries fs options recurse path depth entries (List.range entries.length)
        (is_last, []) with
    | .error e => .error e
    | .ok st => .ok st.2

/-- The walk that shows `k` levels of descendants and has no depth check: with no level left
nothing is listed, else the directory is listed and each directory entered shows one level
less. -/
def show_levels (fs : FileSystem) (options : TreeOptions) : Nat → Walker
  | 0 => fun _ _ _ => .ok []
  | k + 1 => list_directory fs options (show_levels fs options k)

/-- The file system in which no path that is a symbolic link can be opened as a directory;
everything else is as in `fs`. -/
def without_symlink_listings (fs : FileSystem) : FileSystem :=
  { fs with readdir := fun p => if is_symlink fs p then none else fs.readdir p }

/-- A line that begins with the escape byte of the colour sequence: the mark of the line of a
directory entry. -/
def is_directory_line (line : Str) : Bool := line.head? == some 27

/-- The nesting of real directories (directories that are not symbolic links) below `path` is
at most `h` levels deep, over the entries that the lister returns. -/
def nesting_bounded (fs : FileSystem) (show_hidden : Bool) : Nat → Str → Bool
  | 0, path =>
    (get_directory_entries fs path show_hidden).all (fun entry =>
      !(is_directory fs (path ++ slash ++ entry) && !is_symlink fs (path ++ slash ++ entry)))
  | h + 1, path =>
    (get_directory_entries fs path show_hidden).all (fun entry =>
      !(is_directory fs (path ++ slash ++ entry) && !is_symlink fs (path ++ slash ++ entry)) ||
        nesting_bounded fs show_hidden h (path ++ slash ++ entry))

/-- The file system in which the directory `dir` can be read and is empty (`readdir` yields
`.` and `..` only); everything else is as in `fs`. -/
def with_empty_directory (fs : FileSystem) (dir : Str) : FileSystem :=
  { fs with readdir := fun p => if p = dir then some [dot, dotdot] else fs.readdir p }

/-- The file system in which every directory is enumerated in the reverse order; everything
else is as in `fs`. -/
def reversed_enumeration (fs : FileSystem) : FileSystem :=
  { fs with readdir := fun p => (fs.readdir p).map List.reverse }

/-- What a walk with fuel `fuel + 1` writes for the entry of index `i` of the listing `entries`
of the directory `path`: nothing for an entry skipped by `dir_only`; for a directory that is
not a symbolic link the line of the entry followed by all the lines of the walk of that
directory; else the line of the entry alone. -/
def is_block (fs : FileSystem) (options : TreeOptions) (fuel : Nat) (path : Str)
    (anc : List Bool) (depth : Int) (entries : List Str) (i : Nat) (block : List Str) : Prop :=
  if options.dir_only && !is_directory fs (path ++ slash ++ entries.getD i []) then
    block = []
  else if is_directory fs (path ++ slash ++ entries.getD i []) &&
      !is_symlink fs (path ++ slash ++ entries.getD i []) then
    ∃ below,
      print_tree fs options fuel (path ++ slash ++ entries.getD i [])
        (anc ++ [decide (i = entries.length - 1)] ++ [true]) (depth + 1) = .ok below ∧
      block = entry_line fs options path anc (entries.getD i [])
        (decide (i = entries.length - 1)) :: below
  else
    block = [entry_line fs options path anc (entries.getD i [])
      (decide (i = entries.length - 1))]

/-- The path `start/n1/.../nk` of the directory reached from the starting path through the
directories `n1`, ..., `nk`. -/
def chain_path (start : Str) (chain : List Str) : Str :=
  chain.foldl (fun p n => p ++ slash ++ n) start

/-- The name shown for the entry `name` of the directory reached through `chain`: its path
from the starting path in full-path mode, else the bare name. -/
def shown_name (options : TreeOptions) (start : Str) (chain : List Str) (name : Str) : Str :=
  if options.full_path then chain_path start (chain ++ [name]) else name

/-- The line of the entry `name` of the directory reached through `chain`: prefix, name shown,
arrow and target for a symbolic link, newline. -/
def named_line (fs : FileSystem) (options : TreeOptions) (start : Str) (chain : List Str)
    (anc : List Bool) (name : Str) (last : Bool) : Str :=
  colour (is_directory fs (chain_path start (chain ++ [name])))
      ((anc.map segment).flatten ++ connector last) ++
    (shown_name options start chain name ++
      (if is_symlink fs (chain_path start (chain ++ [name])) then
        arrow ++ read_symlink fs (chain_path start (chain ++ [name]))
       else [])) ++
    newline

/-- The visit of a directory given by its chain of names below the starting path. -/
abbrev ChainWalker := List Str → List Bool → Int → Except Fault (List Str)

/-- The lines for the entry of index `i` of the directory reached through `chain`; a
directory that is not a symbolic link is visited through the chain extended by its name. -/
def named_entry (fs : FileSystem) (options : TreeOptions) (visit : ChainWalker)
    (start : Str) (chain : List Str) (depth : Int) (entries : List Str) (anc : List Bool)
    (i : Nat) : Except Fault (List Str) :=
  let name := entries.getD i []
  let last := decide (i = entries.length - 1)
  if options.dir_only && !is_directory fs (chain_path start (chain ++ [name])) then
    .ok []
  else if is_directory fs (chain_path start (chain ++ [name])) &&
      !is_symlink fs (chain_path start (chain ++ [name])) then
    match visit (chain ++ [name]) (anc ++ [last] ++ [true]) (depth + 1) with
    | .error e => .error e
    | .ok below => .ok (named_line fs options start chain anc name last :: below)
  else
    .ok [named_line fs options start chain anc name last]

/-- The lines for the entries of the indices given. -/
def named_entries (fs : FileSystem) (options : TreeOptions) (visit : ChainWalker)
    (start : Str) (chain : List Str) (depth : Int) (entries : List Str) (anc : List Bool) :
    List Nat → Except Fault (List Str)
  | [] => .ok []
  | i :: rest =>
    match named_entry fs options visit start chain depth entries anc i with
    | .error e => .error e
    | .ok here =>
      match named_entries fs options visit start chain depth entries anc rest with
      | .error e => .error e
      | .ok others => .ok (here ++ others)

/-- The walk in which every directory is known by the chain of names that leads to it from
the starting path, and every entry is shown by `shown_name`. -/
def walk_named (fs : FileSystem) (options : TreeOptions) (start : Str) : Nat → ChainWalker
  | 0 => fun _ _ _ => .error .out_of_fuel
  | fuel + 1 => fun chain is_last depth =>
    if options.max_depth != -1 && depth > options.max_depth then
      .ok []
    else
      named_entries fs options (walk_named fs options start fuel) start chain depth
        (get_directory_entries fs (chain_path start chain) options.show_hidden)
        is_last.dropLast
        (List.range
          (get_directory_entries fs (chain_path start chain) options.show_hidden).length)

/-- The walk with no depth check at all: every directory reached is listed. -/
def walk_all (fs : FileSystem) (options : TreeOptions) : Nat → Walker
  | 0 => fun _ _ _ => .error .out_of_fuel
  | fuel + 1 => list_directory fs options (walk_all fs options fuel)

/-- A stand-in for the recursive call that writes one line of two bytes: the number of
elements of the vector it receives, and its depth. -/
def probe : Walker := fun _ is_last depth => .ok [[is_last.length, depth.toNat]]

/-- The walker `w` with a check on the vector and the depth it is called with; a call that
fails the check stops the walk with a fault. -/
def checked (inv : List Bool → Int → Bool) (w : Walker) : Walker :=
  fun path is_last depth =>
    if inv is_last depth then w path is_last depth else .error .undefined_behaviour

/-- The walk of `print_tree` in which every recursive call goes through the check `inv`. -/
def print_tree_checked (fs : FileSystem) (options : TreeOptions)
    (inv : List Bool → Int → Bool) : Nat → Walker
  | 0 => fun _ _ _ => .error .out_of_fuel
  | fuel + 1 => print_tree_body fs options (checked inv (print_tree_checked fs options inv fuel))

/-- What `getopt_long` returns in the option loop of `main`: the letter of a recognised option
(a long option gives the letter of its short form, `L` comes with its argument `optarg`), or
`?` for an unrecognised option or a missing argument. -/
inductive OptionCode where
  | all
  | dir_only
  | full_path
  | level (optarg : Str)
  | help
  | invalid
  deriving DecidableEq, Repr

/-- The options set by the constructor `TreeOptions()`. -/
def initial_options : TreeOptions :=
  { show_hidden := false, dir_only := false, full_path := false, max_depth := -1,
    start_path := ascii "." }

/-- The text written by `print_help`. -/
def print_help : Str :=
  ascii "Usage: tree [OPTIONS] [DIRECTORY]\n" ++
  ascii "Display directory contents in a tree-like format.\n\n" ++
  ascii "Options:\n" ++
  ascii "  -a, --all         Show hidden files (those starting with '.')\n" ++
  ascii "  -d, --dir-only    List directories only\n" ++
  ascii "  -f, --full-path   Print the full path prefix for each file\n" ++
  ascii "  -L, --level N     Descend only N levels deep\n" ++
  ascii "  -h, --help        Display this help message\n"

/-- The integer that `iss >> result` of the standard library leaves in `result` is given by
`read_int`. For a text with nothing to read (empty or blank) the stream reads nothing and
`result` stays uninitialised, so that the value returned in C++ is indeterminate; `read_int`
then stands for the value that the run returns. -/
def string_to_int (read_int : Str → Int) (s : Str) : Int := read_int s

/-- The option loop of `main` over the values returned by `getopt_long`, in order: the options
when the loop runs to its end, else the outcome of the `return` inside the loop. `opterr` is
left at its default, so when `getopt_long` returns `?` it has written its own message on the
error stream, in front of the line of the program; `diagnostic` is that message. -/
def option_loop (read_int : Str → Int) (diagnostic : Str) :
    List OptionCode → TreeOptions → Except Outcome TreeOptions
  | [], options => .ok options
  | .all :: rest, options =>
    option_loop read_int diagnostic rest { options with show_hidden := true }
  | .dir_only :: rest, options =>
    option_loop read_int diagnostic rest { options with dir_only := true }
  | .full_path :: rest, options =>
    option_loop read_int diagnostic rest { options with full_path := true }
  | .level optarg :: rest, options =>
    option_loop read_int diagnostic rest
      { options with max_depth := string_to_int read_int optarg }
  | .help :: _, _ => .error { status := 0, stdout := print_help, stderr := [] }
  | .invalid :: _, _ =>
    .error { status := 1, stdout := [],
             stderr := diagnostic ++ ascii "Invalid option. Use -h for help.\n" }

/-- The whole of `main`: the option loop, the starting directory `argv[optind]` when there is
one (`positional`), and then the part embedded as `main`. -/
def main_from_command_line (fs : FileSystem) (read_int : Str → Int) (diagnostic : Str)
    (codes : List OptionCode) (positional : Option Str) (fuel : Nat) : Except Fault Outcome :=
  match option_loop read_int diagnostic codes initial_options with
  | .error outcome => .ok outcome
  | .ok options =>
    let options :=
      match positional with
      | some path => { options with start_path := path }
      | none => options
    main fs options fuel

/-- The name `name` is a qualifying entry of the directory `dir`: the directory can be read
and holds an entry of that name, the name passes the filter of the lister (it is not `.` or
`..` and, unless hidden entries are shown, does not begin with a dot), and, when only
directories are listed, the entry is a directory. -/
def qualifying_entry (fs : FileSystem) (options : TreeOptions) (dir name : Str) : Bool :=
  (match fs.readdir dir with
    | none => false
    | some names => decide (name ∈ names)) &&
  qualifies options.show_hidden name &&
  (!options.dir_only || is_directory fs (dir ++ slash ++ name))

/-- Every name of the chain is a qualifying entry of the directory that holds it: the first
name in `dir`, the second in the directory of the first name, and so on to the entry itself,
which is the final name. -/
def qualifies_along (fs : FileSystem) (options : TreeOptions) : Str → List Str → Bool
  | _, [] => true
  | dir, name :: rest =>
    qualifying_entry fs options dir name &&
      qualifies_along fs options (dir ++ slash ++ name) rest

/-- Every ancestor of the entry reached from `dir` through the chain (every name of the chain
but the final one) is a directory and is not a symbolic link. -/
def ancestors_entered (fs : FileSystem) : Str → List Str → Bool
  | _, [] => true
  | dir, name :: rest =>
    rest.isEmpty ||
      (is_directory fs (dir ++ slash ++ name) && !is_symlink fs (dir ++ slash ++ name) &&
        ancestors_entered fs (dir ++ slash ++ name) rest)

/-- The entries shown for the name `name` of the directory reached through `chain`: none when
only directories are listed and it is not one; else the entry itself, followed, for a
directory that is not a symbolic link, by the entries that `below` gives for it. An entry is
given by the chain of names that leads to it from the starting path. -/
def shown_from (fs : FileSystem) (options : TreeOptions) (start : Str)
    (below : List Str → List (List Str)) (chain : List Str) (name : Str) : List (List Str) :=
  if options.dir_only && !is_directory fs (chain_path start (chain ++ [name])) then
    []
  else if is_directory fs (chain_path start (chain ++ [name])) &&
      !is_symlink fs (chain_path start (chain ++ [name])) then
    (chain ++ [name]) :: below (chain ++ [name])
  else
    [chain ++ [name]]

/-- The entries shown when `levels` levels are listed below the directory reached through
`chain`, in the order of their lines. -/
def shown_entries (fs : FileSystem) (options : TreeOptions) (start : Str) :
    Nat → List Str → List (List Str)
  | 0, _ => []
  | levels + 1, chain =>
    (get_directory_entries fs (chain_path start chain) options.show_hidden).flatMap
      (shown_from fs options start (shown_entries fs options start levels) chain)

/-- The line `line` is a line of the entry reached through the chain `c`: a prefix of one
segment per ancestor and a connector, in the colour sequences for a directory, then the name
shown for that entry (with the arrow and the target for a symbolic link) and a newline. -/
def is_line_of (fs : FileSystem) (options : TreeOptions) (start : Str) (c : List Str)
    (line : Str) : Prop :=
  ∃ (anc : List Bool) (last : Bool), anc.length + 1 = c.length ∧
    line = entry_line fs options (chain_path start c.dropLast) anc (c.getLastD []) last

/-! ## Example file systems -/

/-- A directory `r` holding the directories `A` and `B` and the files `a.txt` and `b.txt`,
read in the order `.`, `..`, `b.txt`, `A`, `a.txt`, `B`. -/
def fs_sorting : FileSystem where
  stat := fun p =>
    if p = ascii "r" ∨ p = ascii "r/A" ∨ p = ascii "r/B" then some .directory
    else if p = ascii "r/a.txt" ∨ p = ascii "r/b.txt" then some .regular
    else none
  lstat := fun p =>
    if p = ascii "r" ∨ p = ascii "r/A" ∨ p = ascii "r/B" then some .directory
    else if p = ascii "r/a.txt" ∨ p = ascii "r/b.txt" then some .regular
    else none
  readlink := fun _ => none
  readdir := fun p =>
    if p = ascii "r" then
      some [ascii ".", ascii "..", ascii "b.txt", ascii "A", ascii "a.txt", ascii "B"]
    else if p = ascii "r/A" ∨ p = ascii "r/B" then some [ascii ".", ascii ".."]
    else none
  access := fun p =>
    p = ascii "r" ∨ p = ascii "r/A" ∨ p = ascii "r/B" ∨ p = ascii "r/a.txt" ∨ p = ascii "r/b.txt"

/-- A directory `r` with the directory `sub` (holding the directory `deep` with the file `y`,
and the file `x`), the symbolic link `lnk` to `sub`, the empty directory `z`, the file
`file.txt` and the hidden file `.hid`. -/
def fs_walk : FileSystem where
  stat := fun p =>
    if p = ascii "r" ∨ p = ascii "r/sub" ∨ p = ascii "r/sub/deep" ∨ p = ascii "r/z" ∨
        p = ascii "r/lnk" then some .directory
    else if p = ascii "r/file.txt" ∨ p = ascii "r/sub/x" ∨ p = ascii "r/sub/deep/y" ∨
        p = ascii "r/.hid" then some .regular
    else none
  lstat := fun p =>
    if p = ascii "r" ∨ p = ascii "r/sub" ∨ p = ascii "r/sub/deep" ∨ p = ascii "r/z" then
      some .directory
    else if p = ascii "r/file.txt" ∨ p = ascii "r/sub/x" ∨ p = ascii "r/sub/deep/y" ∨
        p = ascii "r/.hid" then some .regular
    else if p = ascii "r/lnk" then some .symlink
    else none
  readlink := fun p => if p = ascii "r/lnk" then some (ascii "sub") else none
  readdir := fun p =>
    if p = ascii "r" then
      some [ascii ".", ascii "..", ascii "file.txt", ascii "sub", ascii "lnk", ascii "z",
        ascii ".hid"]
    else if p = ascii "r/sub" ∨ p = ascii "r/lnk" then
      some [ascii "x", ascii "deep", ascii ".", ascii ".."]
    else if p = ascii "r/sub/deep" then some [ascii "y", ascii ".", ascii ".."]
    else if p = ascii "r/z" then some [ascii ".", ascii ".."]
    else none
  access := fun p =>
    p = ascii "r" ∨ p = ascii "r/sub" ∨ p = ascii "r/sub/deep" ∨ p = ascii "r/z" ∨
      p = ascii "r/lnk" ∨ p = ascii "r/file.txt" ∨ p = ascii "r/sub/x" ∨
      p = ascii "r/sub/deep/y" ∨ p = ascii "r/.hid"

/-- The default options of `TreeOptions()`, on the starting path `r`. -/
def options_default : TreeOptions :=
  { show_hidden := false, dir_only := false, full_path := false, max_depth := -1,
    start_path := ascii "r" }

/-- A directory `r` holding the empty directory `sub` and the file `file.txt`. -/
def fs_pair : FileSystem where
  stat := fun p =>
    if p = ascii "r" ∨ p = ascii "r/sub" then some .directory
    else if p = ascii "r/file.txt" then some .regular
    else none
  lstat := fun p =>
    if p = ascii "r" ∨ p = ascii "r/sub" then some .directory
    else if p = ascii "r/file.txt" then some .regular
    else none
  readlink := fun _ => none
  readdir := fun p =>
    if p = ascii "r" then some [ascii ".", ascii "..", ascii "sub", ascii "file.txt"]
    else if p = ascii "r/sub" then some [ascii ".", ascii ".."]
    else none
  access := fun p => p = ascii "r" ∨ p = ascii "r/sub" ∨ p = ascii "r/file.txt"

/-- A directory `r` holding the symbolic link `l` whose target is 1024 bytes `a` long (and
does not exist). -/
def fs_long_link : FileSystem where
  stat := fun p => if p = ascii "r" then some .directory else none
  lstat := fun p =>
    if p = ascii "r" then some .directory
    else if p = ascii "r/l" then some .symlink
    else none
  readlink := fun p => if p = ascii "r/l" then some (List.replicate 1024 97) else none
  readdir := fun p => if p = ascii "r" then some [ascii ".", ascii "..", ascii "l"] else none
  access := fun p => p = ascii "r"

/-- A directory `r` holding the directory `locked`, which cannot be opened, and the file
`b`. -/
def fs_locked : FileSystem where
  stat := fun p =>
    if p = ascii "r" ∨ p = ascii "r/locked" then some .directory
    else if p = ascii "r/b" then some .regular
    else none
  lstat := fun p =>
    if p = ascii "r" ∨ p = ascii "r/locked" then some .directory
    else if p = ascii "r/b" then some .regular
    else none
  readlink := fun _ => none
  readdir := fun p =>
    if p = ascii "r" then some [ascii ".", ascii "..", ascii "b", ascii "locked"] else none
  access := fun p => p = ascii "r" ∨ p = ascii "r/locked" ∨ p = ascii "r/b"

/-- Whether a string is a repetition of `/loop`. -/
def only_loops : Str → Bool
  | [] => true
  | 47 :: 108 :: 111 :: 111 :: 112 :: rest => only_loops rest
  | _ => false

/-- A directory `r` whose only entry is the symbolic link `loop` to the directory itself, so
that `r/loop`, `r/loop/loop`, and so on without end, all name the directory `r`. -/
def fs_cycle : FileSystem where
  stat := fun p =>
    if p.take 1 = ascii "r" ∧ only_loops (p.drop 1) then some .directory else none
  lstat := fun p =>
    if p = ascii "r" then some .directory
    else if p.take 1 = ascii "r" ∧ only_loops (p.drop 1) then some .symlink
    else none
  readlink := fun p =>
    if p ≠ ascii "r" ∧ p.take 1 = ascii "r" ∧ only_loops (p.drop 1) then some (ascii ".")
    else none
  readdir := fun p =>
    if p.take 1 = ascii "r" ∧ only_loops (p.drop 1) then
      some [ascii ".", ascii "..", ascii "loop"]
    else none
  access := fun p => p.take 1 = ascii "r" ∧ only_loops (p.drop 1)

/-- A directory `r` holding the hidden directory `.h`, which holds the file `x`, and the
file `a`. -/
def fs_hidden : FileSystem where
  stat := fun p =>
    if p = ascii "r" ∨ p = ascii "r/.h" then some .directory
    else if p = ascii "r/.h/x" ∨ p = ascii "r/a" then some .regular
    else none
  lstat := fun p =>
    if p = ascii "r" ∨ p = ascii "r/.h" then some .directory
    else if p = ascii "r/.h/x" ∨ p = ascii "r/a" then some .regular
    else none
  readlink := fun _ => none
  readdir := fun p =>
    if p = ascii "r" then some [ascii ".", ascii "..", ascii ".h", ascii "a"]
    else if p = ascii "r/.h" then some [ascii ".", ascii "..", ascii "x"]
    else none
  access := fun p => p = ascii "r" ∨ p = ascii "r/.h" ∨ p = ascii "r/.h/x" ∨ p = ascii "r/a"

/-! ## The order of `compare_entries` -/

theorem string_lt_irrefl (a : Str) : string_lt a a = false := by
  induction a with
  | nil => rfl
  | cons x xs ih => simp [string_lt, ih]

theorem string_lt_asymm : ∀ (a b : Str), string_lt a b = true → string_lt b a = false
  | [], [] => by simp [string_lt]
  | [], _ :: _ => by simp [string_lt]
  | _ :: _, [] => by simp [string_lt]
  | x :: xs, y :: ys => by
    intro h
    simp only [string_lt] at h ⊢
    by_cases hxy : x < y
    · have : ¬ y < x := by omega
      simp [this, hxy]
    · by_cases hyx : y < x
      · simp [hxy, hyx] at h
      · simp only [hxy, hyx, if_false] at h ⊢
        exact string_lt_asymm xs ys h

theorem string_lt_trans : ∀ (a b c : Str), string_lt a b = true → string_lt b c = true →
    string_lt a c = true
  | [], [], _ => by simp [string_lt]
  | [], _ :: _, [] => by simp [string_lt]
  | [], _ :: _, _ :: _ => by simp [string_lt]
  | _ :: _, [], _ => by simp [string_lt]
  | _ :: _, _ :: _, [] => by simp [string_lt]
  | x :: xs, y :: ys, z :: zs => by
    intro h1 h2
    simp only [string_lt] at h1 h2 ⊢
    by_cases hxy : x < y
    · by_cases hyz : y < z
      · have : x < z := by omega
        simp [this]
      · by_cases hzy : z < y
        · simp [hyz, hzy] at h2
        · have : x < z := by omega
          simp [this]
    · by_cases hyx : y < x
      · simp [hxy, hyx] at h1
      · simp only [hxy, hyx, if_false] at h1
        have hxy' : x = y := by omega
        subst hxy'
        by_cases hxz : x < z
        · simp [hxz]
        · by_cases hzx : z < x
          · simp [hxz, hzx] at h2
          · simp only [hxz, hzx, if_false] at h2 ⊢
            exact string_lt_trans xs ys zs h1 h2

theorem string_lt_connex : ∀ (a b : Str), a ≠ b → string_lt a b = true ∨ string_lt b a = true
  | [], [] => by simp
  | [], _ :: _ => by simp [string_lt]
  | _ :: _, [] => by simp [string_lt]
  | x :: xs, y :: ys => by
    intro hne
    simp only [string_lt]
    by_cases hxy : x < y
    · simp [hxy]
    · by_cases hyx : y < x
      · simp [hyx]
      · simp only [hxy, hyx, if_false]
        have hxy' : x = y := by omega
        subst hxy'
        exact string_lt_connex xs ys (fun h => hne (by rw [h]))

theorem compare_entries_asymm (fs : FileSystem) (base a b : Str)
    (h : compare_entries fs a b base = true) : compare_entries fs b a base = false := by
  unfold compare_entries at h ⊢
  cases ha : is_dir_entry fs base a <;> cases hb : is_dir_entry fs base b <;>
    simp [ha, hb] at h ⊢ <;> exact string_lt_asymm _ _ h

theorem compare_entries_trans (fs : FileSystem) (base a b c : Str)
    (h1 : compare_entries fs a b base = true) (h2 : compare_entries fs b c base = true) :
    compare_entries fs a c base = true := by
  unfold compare_entries at h1 h2 ⊢
  cases ha : is_dir_entry fs base a <;> cases hb : is_dir_entry fs base b <;>
    cases hc : is_dir_entry fs base c <;>
    simp [ha, hb, hc] at h1 h2 ⊢ <;> exact string_lt_trans _ _ _ h1 h2

theorem compare_entries_connex (fs : FileSystem) (base a b : Str) (hne : a ≠ b) :
    compare_entries fs a b base = true ∨ compare_entries fs b a base = true := by
  unfold compare_entries
  cases ha : is_dir_entry fs base a <;> cases hb : is_dir_entry fs base b <;>
    simp [ha, hb] <;> exact string_lt_connex _ _ hne



theorem string_lt_iff_lex : ∀ (a b : Str),
    string_lt a b = true ↔ List.Lex (fun x y : Nat => x < y) a b
  | [], [] => by simp [string_lt]
  | [], _ :: _ => by simp [string_lt, List.Lex.nil]
  | _ :: _, [] => by simp [string_lt]
  | x :: xs, y :: ys => by
    simp only [string_lt]
    by_cases hxy : x < y
    · simp only [hxy, if_true, true_iff]
      exact List.Lex.rel hxy
    · by_cases hyx : y < x
      · simp only [hxy, hyx, if_true, if_false, Bool.false_eq_true, false_iff]
        intro h
        cases h with
        | cons h => omega
        | rel h => omega
      · have hxy1 : x = y := by omega
        subst hxy1
        simp only [hxy, if_false]
        rw [string_lt_iff_lex xs ys]
        constructor
        · exact List.Lex.cons
        · intro h
          cases h with
          | cons h => exact h
          | rel h => omega

/-! ## The lister: filter and sort -/

theorem read_entries_eq_filter (show_hidden : Bool) (names : List Str) :
    read_entries show_hidden names = names.filter (qualifies show_hidden) := by
  induction names with
  | nil => rfl
  | cons name rest ih =>
    have hhead : (name.headD 0 == 46) = (name.head? == some 46) := by
      cases name <;> simp
    simp only [read_entries, List.filter_cons, qualifies, ih, hhead]
    by_cases h1 : name = dot
    · simp [h1]
    · by_cases h2 : name = dotdot
      · simp [h2]
      · by_cases h3 : name.head? = some 46 <;> cases show_hidden <;> simp [h1, h2, h3]



theorem length_swap_entries (es : List Str) (i j : Nat) :
    (swap_entries es i j).length = es.length := by
  simp [swap_entries]

theorem getD_swap_entries (es : List Str) (i j k : Nat) (hi : i < es.length)
    (hj : j < es.length) :
    (swap_entries es i j).getD k [] =
      if k = j then es.getD i [] else if k = i then es.getD j [] else es.getD k [] := by
  simp only [swap_entries, List.getD_eq_getElem?_getD, List.getElem?_set, List.length_set]
  by_cases hkj : k = j
  · subst hkj
    simp [hi, hj]
  · by_cases hki : k = i
    · subst hki
      have : ¬ j = k := fun h => hkj h.symm
      simp [hkj, this, hi, hj]
    · have h1 : ¬ j = k := fun h => hkj h.symm
      have h2 : ¬ i = k := fun h => hki h.symm
      simp [hkj, hki, h1, h2]

theorem swap_entries_perm (es : List Str) (i j : Nat) (hi : i < es.length)
    (hj : j < es.length) : (swap_entries es i j).Perm es := by
  by_cases hij : i = j
  · subst hij
    have : swap_entries es i i = es := by
      apply List.ext_getElem?
      intro k
      simp only [swap_entries, List.getElem?_set, List.length_set, List.getD_eq_getElem?_getD]
      by_cases hk : i = k
      · subst hk; simp [hi]
      · simp [hk]
    rw [this]
  · rw [List.perm_iff_count]
    intro b
    have hlen : j < (es.set i (es.getD j [])).length := by simpa using hj
    have hj' : (es.set i (es.getD j []))[j] = es[j] := by
      simp [List.getElem_set, hij]
    have hgi : es.getD i [] = es[i] := by simp [hi]
    have hgj : es.getD j [] = es[j] := by simp [hj]
    unfold swap_entries
    rw [@List.count_set _ instBEqOfDecidableEq _ _ _ _ hlen,
      @List.count_set _ instBEqOfDecidableEq _ _ _ _ hi, hj', hgi, hgj]
    by_cases h1 : es[i] = b <;> by_cases h2 : es[j] = b <;> simp [h1, h2]
    all_goals
      have hpos := (@List.count_pos_iff Str instBEqOfDecidableEq inferInstance b es).2
        (h1 ▸ List.getElem_mem hi)
      exact Nat.sub_add_cancel hpos

theorem sort_inner_inv (fs : FileSystem) (path : Str) (es : List Str) (i : Nat)
    (hi : i < es.length) :
    ∀ k, i + 1 + k ≤ es.length →
      InnerInv fs path i k es ((List.range' (i + 1) k).foldl (sort_step fs path i) es) := by
  intro k
  induction k with
  | zero =>
    intro _
    refine ⟨rfl, List.Perm.refl _, fun _ _ => rfl, ?_, fun b hb hlt => ⟨b, hb, hlt, rfl⟩⟩
    intro b h1 h2
    omega
  | succ k ih =>
    intro hk
    have inv := ih (by omega)
    rw [List.range'_concat, List.foldl_append]
    simp only [List.foldl_cons, List.foldl_nil, Nat.one_mul]
    generalize (List.range' (i + 1) k).foldl (sort_step fs path i) es = es1 at inv ⊢
    have hi1 : i < es1.length := by rw [inv.length_eq]; exact hi
    have hj1 : i + 1 + k < es1.length := by rw [inv.length_eq]; omega
    unfold sort_step
    by_cases hc : compare_entries fs (es1.getD (i + 1 + k) []) (es1.getD i []) path = true
    · rw [if_pos hc]
      refine ⟨?_, ?_, ?_, ?_, ?_⟩
      · rw [length_swap_entries, inv.length_eq]
      · exact (swap_entries_perm es1 i (i + 1 + k) hi1 hj1).trans inv.perm
      · intro a ha
        rw [getD_swap_entries es1 i (i + 1 + k) a hi1 hj1, if_neg (by omega), if_neg (by omega)]
        exact inv.front a ha
      · intro b hb1 hb2
        have hgi : (swap_entries es1 i (i + 1 + k)).getD i [] = es1.getD (i + 1 + k) [] := by
          rw [getD_swap_entries es1 i (i + 1 + k) i hi1 hj1, if_neg (by omega), if_pos rfl]
        rw [hgi, getD_swap_entries es1 i (i + 1 + k) b hi1 hj1]
        by_cases hbj : b = i + 1 + k
        · rw [if_pos hbj]
          exact compare_entries_asymm fs path _ _ hc
        · rw [if_neg hbj, if_neg (by omega)]
          have hb := inv.least b hb1 (by omega)
          cases hcb : compare_entries fs (es1.getD b []) (es1.getD (i + 1 + k) []) path with
          | false => rfl
          | true =>
            rw [compare_entries_trans fs path _ _ _ hcb hc] at hb
            exact absurd hb (by simp)
      · intro b hb1 hb2
        rw [getD_swap_entries es1 i (i + 1 + k) b hi1 hj1]
        by_cases hbj : b = i + 1 + k
        · rw [if_pos hbj]
          exact inv.back i (Nat.le_refl _) hi
        · rw [if_neg hbj]
          by_cases hbi : b = i
          · rw [if_pos hbi]
            exact inv.back (i + 1 + k) (by omega) (by omega)
          · rw [if_neg hbi]
            exact inv.back b hb1 hb2
    · rw [if_neg hc]
      refine ⟨inv.length_eq, inv.perm, inv.front, ?_, inv.back⟩
      intro b hb1 hb2
      by_cases hbj : b = i + 1 + k
      · rw [hbj]
        simpa using hc
      · exact inv.least b hb1 (by omega)

theorem sort_outer_inv (fs : FileSystem) (path : Str) (es : List Str) :
    ∀ i, i ≤ es.length →
      OuterInv fs path i es ((List.range i).foldl (fun l n => sort_inner fs path n l) es) := by
  intro i
  induction i with
  | zero =>
    intro _
    exact ⟨rfl, List.Perm.refl _, fun a b ha => absurd ha (Nat.not_lt_zero a)⟩
  | succ i ih =>
    intro hi
    have inv := ih (by omega)
    rw [List.range_succ, List.foldl_append]
    simp only [List.foldl_cons, List.foldl_nil]
    generalize (List.range i).foldl (fun l n => sort_inner fs path n l) es = es1 at inv ⊢
    have hi1 : i < es1.length := by rw [inv.length_eq]; omega
    have inner := sort_inner_inv fs path es1 i hi1 (es1.length - (i + 1)) (by omega)
    change InnerInv fs path i (es1.length - (i + 1)) es1 (sort_inner fs path i es1) at inner
    generalize sort_inner fs path i es1 = es2 at inner ⊢
    refine ⟨inner.length_eq.trans inv.length_eq, inner.perm.trans inv.perm, ?_⟩
    intro a b ha hab hb
    by_cases hai : a = i
    · subst hai
      exact inner.least b hab (by rw [inv.length_eq]; omega)
    · have ha1 : a < i := by omega
      rw [inner.front a ha1]
      by_cases hbi : b < i
      · rw [inner.front b hbi]
        exact inv.ordered a b ha1 hab hb
      · obtain ⟨c, hc1, hc2, hc3⟩ := inner.back b (by omega) (by rw [inv.length_eq]; exact hb)
        rw [hc3]
        exact inv.ordered a c ha1 (by omega) (by rw [← inv.length_eq]; exact hc2)

theorem sort_entries_perm (fs : FileSystem) (path : Str) (es : List Str) :
    (sort_entries fs path es).Perm es :=
  (sort_outer_inv fs path es es.length (Nat.le_refl _)).perm

theorem sort_entries_ordered (fs : FileSystem) (path : Str) (es : List Str) :
    (sort_entries fs path es).Pairwise (fun a b => compare_entries fs b a path = false) := by
  have inv := sort_outer_inv fs path es es.length (Nat.le_refl _)
  change OuterInv fs path es.length es (sort_entries fs path es) at inv
  generalize sort_entries fs path es = es1 at inv ⊢
  rw [List.pairwise_iff_getElem]
  intro a b ha hb hab
  have h := inv.ordered a b (by rw [← inv.length_eq]; exact ha) hab
    (by rw [← inv.length_eq]; exact hb)
  simpa [ha, hb] using h

theorem sort_entries_sorted (fs : FileSystem) (path : Str) (es : List Str) (hnd : es.Nodup) :
    (sort_entries fs path es).Pairwise (fun a b => compare_entries fs a b path = true) := by
  have hnd1 : (sort_entries fs path es).Nodup := (sort_entries_perm fs path es).nodup_iff.2 hnd
  have hord := sort_entries_ordered fs path es
  generalize sort_entries fs path es = es1 at hnd1 hord ⊢
  have hboth := hord.and hnd1
  refine hboth.imp ?_
  intro a b hab
  rcases compare_entries_connex fs path a b hab.2 with h | h
  · exact h
  · rw [hab.1] at h
    exact absurd h (by simp)

theorem get_directory_entries_of_readdir (fs : FileSystem) (path : Str) (show_hidden : Bool)
    (names : List Str) (hread : fs.readdir path = some names) :
    get_directory_entries fs path show_hidden =
      sort_entries fs path (names.filter (qualifies show_hidden)) := by
  simp only [get_directory_entries, hread, read_entries_eq_filter]

/-- C1: for a directory whose `readdir` names are distinct, the sequence returned by
`get_directory_entries` is sorted by `compare_entries`: every pair in order satisfies the
comparator, no non-directory precedes a directory (the class is that of `stat`, which follows
symbolic links), and two names of one class are in strictly ascending lexicographic order of
their bytes. -/
theorem get_directory_entries_sorted (fs : FileSystem) (path : Str) (show_hidden : Bool)
    (names : List Str) (hread : fs.readdir path = some names) (hnd : names.Nodup) :
    (get_directory_entries fs path show_hidden).Pairwise (fun a b =>
      compare_entries fs a b path = true ∧
      ¬ (is_directory fs (path ++ slash ++ a) = false ∧
          is_directory fs (path ++ slash ++ b) = true) ∧
      (is_directory fs (path ++ slash ++ a) = is_directory fs (path ++ slash ++ b) →
        List.Lex (fun x y : Nat => x < y) a b)) := by
  rw [get_directory_entries_of_readdir fs path show_hidden names hread]
  refine (sort_entries_sorted fs path _ (hnd.filter _)).imp ?_
  intro a b hab
  refine ⟨hab, ?_, ?_⟩
  · rintro ⟨ha, hb⟩
    simp only [compare_entries, is_dir_entry, ha, hb] at hab
    simp at hab
  · intro hcls
    rw [← string_lt_iff_lex]
    simp only [compare_entries, is_dir_entry, hcls] at hab
    simpa using hab

theorem get_directory_entries_sorted_witness :
    get_directory_entries fs_sorting (ascii "r") false =
        [ascii "A", ascii "B", ascii "a.txt", ascii "b.txt"] ∧
      (get_directory_entries fs_sorting (ascii "r") false).Pairwise (fun a b =>
        compare_entries fs_sorting a b (ascii "r") = true ∧
        ¬ (is_directory fs_sorting (ascii "r" ++ slash ++ a) = false ∧
            is_directory fs_sorting (ascii "r" ++ slash ++ b) = true) ∧
        (is_directory fs_sorting (ascii "r" ++ slash ++ a) =
            is_directory fs_sorting (ascii "r" ++ slash ++ b) →
          List.Lex (fun x y : Nat => x < y) a b)) :=
  ⟨by decide, get_directory_entries_sorted fs_sorting (ascii "r") false
    [ascii ".", ascii "..", ascii "b.txt", ascii "A", ascii "a.txt", ascii "B"]
    (by decide) (by decide)⟩

/-- C2: for a readable directory the result of `get_directory_entries` is a permutation of the
qualifying names read: it holds neither `.` nor `..`, it holds no name beginning with a dot
when hidden entries are not shown, and every other name read occurs in it as often as it was
read (once, for the distinct names of a directory). -/
theorem get_directory_entries_perm (fs : FileSystem) (path : Str) (show_hidden : Bool)
    (names : List Str) (hread : fs.readdir path = some names) :
    (get_directory_entries fs path show_hidden).Perm (names.filter (qualifies show_hidden)) ∧
    dot ∉ get_directory_entries fs path show_hidden ∧
    dotdot ∉ get_directory_entries fs path show_hidden ∧
    (show_hidden = false →
      ∀ name ∈ get_directory_entries fs path show_hidden, name.head? ≠ some 46) ∧
    (∀ name ∈ names, name ≠ dot → name ≠ dotdot →
      (show_hidden = true ∨ name.head? ≠ some 46) →
      (get_directory_entries fs path show_hidden).countP (fun e => e = name) =
        names.countP (fun e => e = name)) ∧
    (names.Nodup → (get_directory_entries fs path show_hidden).Nodup) := by
  rw [get_directory_entries_of_readdir fs path show_hidden names hread]
  have hperm := sort_entries_perm fs path (names.filter (qualifies show_hidden))
  refine ⟨hperm, ?_, ?_, ?_, ?_, ?_⟩
  · intro h
    have := (hperm.mem_iff.1 h)
    simp [qualifies] at this
  · intro h
    have := (hperm.mem_iff.1 h)
    simp [qualifies] at this
  · intro hsh name h
    have := (hperm.mem_iff.1 h)
    subst hsh
    simp [qualifies] at this
    exact this.2.2
  · intro name _ h1 h2 h3
    rw [hperm.countP_eq, List.countP_filter]
    apply List.countP_congr
    intro e _
    simp only [Bool.and_eq_true, decide_eq_true_eq]
    constructor
    · exact fun h => h.1
    · intro h
      subst h
      refine ⟨rfl, ?_⟩
      rcases h3 with h3 | h3 <;> simp [qualifies, h1, h2, h3]
  · intro hnd
    exact hperm.nodup_iff.2 (hnd.filter _)

theorem get_directory_entries_perm_witness :
    (get_directory_entries fs_sorting (ascii "r") false).Perm
      ([ascii ".", ascii "..", ascii "b.txt", ascii "A", ascii "a.txt", ascii "B"].filter
        (qualifies false)) :=
  (get_directory_entries_perm fs_sorting (ascii "r") false
    [ascii ".", ascii "..", ascii "b.txt", ascii "A", ascii "a.txt", ascii "B"] (by decide)).1

/-! ## The prefix of a line -/

theorem foldl_segments (F : List Bool) (acc : Str) :
    ∀ n, n ≤ F.length →
      (List.range n).foldl
          (fun acc i => acc ++ (if F.getD i false then four_spaces else bar_segment)) acc =
        acc ++ ((F.take n).map segment).flatten := by
  intro n
  induction n with
  | zero => intro _; simp
  | succ n ih =>
    intro hn
    have hlt : n < F.length := by omega
    rw [List.range_succ, List.foldl_append, ih (by omega), List.take_succ,
      List.getElem?_eq_getElem hlt]
    simp only [List.foldl_cons, List.foldl_nil, List.getD_eq_getElem?_getD,
      List.getElem?_eq_getElem hlt, Option.getD_some, Option.toList, List.map_append,
      List.map_cons, List.map_nil, List.flatten_append, List.flatten_cons, List.flatten_nil,
      List.append_nil, List.append_assoc, segment]

theorem get_tree_prefix_snoc (init : List Bool) (last is_dir : Bool) :
    get_tree_prefix (init ++ [last]) is_dir =
      .ok (if is_dir then blue ++ ((init.map segment).flatten ++ connector last) ++ reset
        else (init.map segment).flatten ++ connector last) := by
  unfold get_tree_prefix
  have hne : (init ++ [last]).isEmpty = false := by simp
  rw [hne]
  simp only [Bool.false_eq_true, if_false]
  rw [foldl_segments (init ++ [last]) [] _ (by simp)]
  simp [connector]

/-- C8: for a flags sequence `F` of length at least 1, `get_tree_prefix F false` is the
concatenation of one segment per element but the last (four spaces for `true`, a bar and
three spaces for `false`) followed by the connector of the last element, and
`get_tree_prefix F true` is that same prefix between the colour sequences. -/
theorem get_tree_prefix_spec (F : List Bool) (hF : F ≠ []) :
    get_tree_prefix F false =
        .ok ((F.dropLast.map segment).flatten ++ connector (F.getLast hF)) ∧
    get_tree_prefix F true =
        ( get_tree_prefix F false).map (fun p => blue ++ p ++ reset) := by
  obtain ⟨init, last, rfl⟩ : ∃ init last, F = init ++ [last] :=
    ⟨F.dropLast, F.getLast hF, (List.dropLast_append_getLast hF).symm⟩
  rw [get_tree_prefix_snoc, get_tree_prefix_snoc]
  simp [Except.map]

theorem get_tree_prefix_spec_witness :
    get_tree_prefix [true, false, true] false =
        .ok (four_spaces ++ bar_segment ++ last_connector) ∧
    get_tree_prefix [true, false, true] true =
        ( get_tree_prefix [true, false, true] false).map (fun p => blue ++ p ++ reset) := by
  have h := get_tree_prefix_spec [true, false, true] (by decide)
  exact ⟨by rfl, h.2⟩

/-! ## The loop of the walker -/

theorem set_back_eq (F : List Bool) (v : Bool) :
    (if !F.isEmpty then F.dropLast ++ [v] else F ++ [v]) = F.dropLast ++ [v] := by
  cases F <;> simp

theorem print_entry_eq (fs : FileSystem) (options : TreeOptions) (recurse : Walker)
    (path : Str) (depth : Int) (entries : List Str) (i : Nat) (F : List Bool) (out : List Str) :
    print_entry fs options recurse path depth entries i (F, out) =
      if options.dir_only && !is_directory fs (path ++ slash ++ entries.getD i []) then
        .ok (F, out)
      else if is_directory fs (path ++ slash ++ entries.getD i []) &&
          !is_symlink fs (path ++ slash ++ entries.getD i []) then
        match recurse (path ++ slash ++ entries.getD i [])
            (F.dropLast ++ [decide (i = entries.length - 1)] ++ [true]) (depth + 1) with
        | .error e => .error e
        | .ok sub =>
          .ok (F.dropLast ++ [decide (i = entries.length - 1)],
            out ++ [entry_line fs options path F.dropLast (entries.getD i [])
              (decide (i = entries.length - 1))] ++ sub)
      else
        .ok (F.dropLast ++ [decide (i = entries.length - 1)],
          out ++ [entry_line fs options path F.dropLast (entries.getD i [])
            (decide (i = entries.length - 1))]) := by
  unfold print_entry entry_line display_name colour
  simp only [set_back_eq, get_tree_prefix_snoc]
  generalize is_directory fs (path ++ slash ++ entries.getD i []) = d
  generalize is_symlink fs (path ++ slash ++ entries.getD i []) = l
  generalize recurse (path ++ slash ++ entries.getD i [])
    (F.dropLast ++ [decide (i = entries.length - 1)] ++ [true]) (depth + 1) = r
  cases d <;> cases l <;> cases options.dir_only <;> cases options.full_path <;> cases r <;>
    simp

theorem print_entries_lines (fs : FileSystem) (options : TreeOptions) (recurse : Walker)
    (path : Str) (depth : Int) (entries : List Str) :
    ∀ (idxs : List Nat) (F : List Bool) (out : List Str),
      (print_entries fs options recurse path depth entries idxs (F, out)).map Prod.snd =
        (entries_lines fs options recurse path depth entries F.dropLast idxs).map
          (fun ls => out ++ ls) := by
  intro idxs
  induction idxs with
  | nil =>
    intro F out
    simp [print_entries, entries_lines, Except.map]
  | cons i rest ih =>
    intro F out
    simp only [print_entries, entries_lines, print_entry_eq, entry_lines]
    by_cases hskip :
        (options.dir_only && !is_directory fs (path ++ slash ++ entries.getD i [])) = true
    · simp only [hskip, ↓reduceIte]
      rw [ih F out]
      cases entries_lines fs options recurse path depth entries F.dropLast rest <;>
        simp [Except.map]
    · simp only [hskip, Bool.false_eq_true, ↓reduceIte]
      by_cases hrec : (is_directory fs (path ++ slash ++ entries.getD i []) &&
          !is_symlink fs (path ++ slash ++ entries.getD i [])) = true
      · simp only [hrec, ↓reduceIte]
        cases recurse (path ++ slash ++ entries.getD i [])
            (F.dropLast ++ [decide (i = entries.length - 1)] ++ [true]) (depth + 1) with
        | error e => simp [Except.map]
        | ok sub =>
          simp only []
          rw [ih]
          simp only [List.dropLast_concat]
          cases entries_lines fs options recurse path depth entries F.dropLast rest <;>
            simp [Except.map]
      · simp only [hrec, Bool.false_eq_true, ↓reduceIte]
        rw [ih]
        simp only [List.dropLast_concat]
        cases entries_lines fs options recurse path depth entries F.dropLast rest <;>
          simp [Except.map]

theorem print_tree_body_eq (fs : FileSystem) (options : TreeOptions) (recurse : Walker)
    (path : Str) (F : List Bool) (depth : Int) :
    print_tree_body fs options recurse path F depth =
      if options.max_depth != -1 && depth > options.max_depth then .ok []
      else
        entries_lines fs options recurse path depth
          (get_directory_entries fs path options.show_hidden) F.dropLast
          (List.range (get_directory_entries fs path options.show_hidden).length) := by
  unfold print_tree_body
  split
  · rfl
  · have h := print_entries_lines fs options recurse path depth
      (get_directory_entries fs path options.show_hidden)
      (List.range (get_directory_entries fs path options.show_hidden).length) F []
    simp only [List.nil_append] at h
    have hid : ∀ q : Except Fault (List Str), q.map (fun ls => ls) = q := by
      intro q; cases q <;> rfl
    rw [hid] at h
    rw [← h]
    dsimp only
    generalize print_entries fs options recurse path depth
      (get_directory_entries fs path options.show_hidden)
      (List.range (get_directory_entries fs path options.show_hidden).length) (F, []) = r
    cases r <;> rfl

theorem print_tree_succ (fs : FileSystem) (options : TreeOptions) (fuel : Nat) (path : Str)
    (F : List Bool) (depth : Int) :
    print_tree fs options (fuel + 1) path F depth =
      if options.max_depth != -1 && depth > options.max_depth then .ok []
      else
        entries_lines fs options (print_tree fs options fuel) path depth
          (get_directory_entries fs path options.show_hidden) F.dropLast
          (List.range (get_directory_entries fs path options.show_hidden).length) := by
  rw [print_tree, print_tree_body_eq]

/-! ## Fuel -/

theorem entry_lines_mono (fs : FileSystem) (options : TreeOptions) (r1 r2 : Walker)
    (path : Str) (depth : Int) (entries : List Str) (anc : List Bool)
    (h : ∀ p F lines, r1 p F (depth + 1) = .ok lines → r2 p F (depth + 1) = .ok lines)
    (i : Nat) (lines : List Str)
    (hl : entry_lines fs options r1 path depth entries anc i = .ok lines) :
    entry_lines fs options r2 path depth entries anc i = .ok lines := by
  unfold entry_lines at hl ⊢
  by_cases hskip :
      (options.dir_only && !is_directory fs (path ++ slash ++ entries.getD i [])) = true
  · simp only [hskip, if_true] at hl ⊢
    exact hl
  · simp only [hskip, Bool.false_eq_true, if_false] at hl ⊢
    by_cases hrec : (is_directory fs (path ++ slash ++ entries.getD i []) &&
        !is_symlink fs (path ++ slash ++ entries.getD i [])) = true
    · simp only [hrec, if_true] at hl ⊢
      cases hr : r1 (path ++ slash ++ entries.getD i [])
          (anc ++ [decide (i = entries.length - 1)] ++ [true]) (depth + 1) with
      | error e =>
        rw [hr] at hl
        exact absurd hl (by simp)
      | ok below =>
        rw [hr] at hl
        rw [h _ _ below hr]
        exact hl
    · simp only [hrec, Bool.false_eq_true, if_false] at hl ⊢
      exact hl

theorem entries_lines_mono (fs : FileSystem) (options : TreeOptions) (r1 r2 : Walker)
    (path : Str) (depth : Int) (entries : List Str) (anc : List Bool)
    (h : ∀ p F lines, r1 p F (depth + 1) = .ok lines → r2 p F (depth + 1) = .ok lines) :
    ∀ (idxs : List Nat) (lines : List Str),
      entries_lines fs options r1 path depth entries anc idxs = .ok lines →
      entries_lines fs options r2 path depth entries anc idxs = .ok lines := by
  intro idxs
  induction idxs with
  | nil => intro lines hl; exact hl
  | cons i rest ih =>
    intro lines hl
    simp only [entries_lines] at hl ⊢
    cases hhere : entry_lines fs options r1 path depth entries anc i with
    | error e =>
      rw [hhere] at hl
      exact absurd hl (by simp)
    | ok here =>
      rw [hhere] at hl
      rw [entry_lines_mono fs options r1 r2 path depth entries anc h i here hhere]
      cases hrest : entries_lines fs options r1 path depth entries anc rest with
      | error e =>
        rw [hrest] at hl
        exact absurd hl (by simp)
      | ok others =>
        rw [hrest] at hl
        rw [ih others hrest]
        exact hl

theorem print_tree_fuel_succ (fs : FileSystem) (options : TreeOptions) :
    ∀ (fuel : Nat) (path : Str) (F : List Bool) (depth : Int) (lines : List Str),
      print_tree fs options fuel path F depth = .ok lines →
      print_tree fs options (fuel + 1) path F depth = .ok lines := by
  intro fuel
  induction fuel with
  | zero =>
    intro path F depth lines h
    exact absurd h (by simp [print_tree])
  | succ fuel ih =>
    intro path F depth lines h
    rw [print_tree_succ] at h ⊢
    by_cases hg : (options.max_depth != -1 && decide (depth > options.max_depth)) = true
    · rw [if_pos hg] at h ⊢
      exact h
    · rw [if_neg hg] at h ⊢
      exact entries_lines_mono fs options _ _ path depth _ _
        (fun p F1 ls hp => ih p F1 (depth + 1) ls hp) _ lines h

theorem print_tree_fuel_add (fs : FileSystem) (options : TreeOptions) (fuel : Nat) (path : Str)
    (F : List Bool) (depth : Int) (lines : List Str)
    (h : print_tree fs options fuel path F depth = .ok lines) (extra : Nat) :
    print_tree fs options (fuel + extra) path F depth = .ok lines := by
  induction extra with
  | zero => exact h
  | succ extra ih => exact print_tree_fuel_succ fs options _ path F depth lines ih

theorem entry_lines_ok (fs : FileSystem) (options : TreeOptions) (recurse : Walker)
    (path : Str) (depth : Int) (entries : List Str) (anc : List Bool) (i : Nat)
    (h : (is_directory fs (path ++ slash ++ entries.getD i []) &&
          !is_symlink fs (path ++ slash ++ entries.getD i [])) = true →
        ∀ F, ∃ below, recurse (path ++ slash ++ entries.getD i []) F (depth + 1) = .ok below) :
    ∃ lines, entry_lines fs options recurse path depth entries anc i = .ok lines := by
  unfold entry_lines
  by_cases hskip :
      (options.dir_only && !is_directory fs (path ++ slash ++ entries.getD i [])) = true
  · simp only [hskip, if_true]
    exact ⟨_, rfl⟩
  · simp only [hskip, Bool.false_eq_true, if_false]
    by_cases hrec : (is_directory fs (path ++ slash ++ entries.getD i []) &&
        !is_symlink fs (path ++ slash ++ entries.getD i [])) = true
    · simp only [hrec, if_true]
      obtain ⟨below, hbelow⟩ := h hrec (anc ++ [decide (i = entries.length - 1)] ++ [true])
      rw [hbelow]
      exact ⟨_, rfl⟩
    · simp only [hrec, Bool.false_eq_true, if_false]
      exact ⟨_, rfl⟩

theorem entries_lines_ok (fs : FileSystem) (options : TreeOptions) (recurse : Walker)
    (path : Str) (depth : Int) (entries : List Str) (anc : List Bool) :
    ∀ (idxs : List Nat),
      (∀ i ∈ idxs,
        (is_directory fs (path ++ slash ++ entries.getD i []) &&
          !is_symlink fs (path ++ slash ++ entries.getD i [])) = true →
        ∀ F, ∃ below, recurse (path ++ slash ++ entries.getD i []) F (depth + 1) = .ok below) →
      ∃ lines, entries_lines fs options recurse path depth entries anc idxs = .ok lines := by
  intro idxs
  induction idxs with
  | nil => intro _; exact ⟨[], rfl⟩
  | cons i rest ih =>
    intro h
    obtain ⟨others, hothers⟩ := ih (fun j hj => h j (List.mem_cons_of_mem _ hj))
    obtain ⟨here, hhere⟩ := entry_lines_ok fs options recurse path depth entries anc i
      (h i (List.mem_cons_self _ _))
    simp only [entries_lines, hothers, hhere]
    exact ⟨_, rfl⟩

theorem print_tree_of_nesting_bounded (fs : FileSystem) (options : TreeOptions) :
    ∀ (h : Nat) (path : Str) (F : List Bool) (depth : Int),
      nesting_bounded fs options.show_hidden h path = true →
      ∃ lines, print_tree fs options (h + 1) path F depth = .ok lines := by
  intro h
  induction h with
  | zero =>
    intro path F depth hb
    rw [print_tree_succ]
    by_cases hg : (options.max_depth != -1 && decide (depth > options.max_depth)) = true
    · rw [if_pos hg]
      exact ⟨[], rfl⟩
    · rw [if_neg hg]
      apply entries_lines_ok
      intro i hi hreal
      have hi1 : i < (get_directory_entries fs path options.show_hidden).length :=
        List.mem_range.1 hi
      have hmem : (get_directory_entries fs path options.show_hidden).getD i [] ∈
          get_directory_entries fs path options.show_hidden := by
        rw [List.getD_eq_getElem _ _ hi1]
        exact List.getElem_mem hi1
      simp only [nesting_bounded, List.all_eq_true] at hb
      have := hb _ hmem
      rw [hreal] at this
      exact absurd this (by simp)
  | succ h ih =>
    intro path F depth hb
    rw [print_tree_succ]
    by_cases hg : (options.max_depth != -1 && decide (depth > options.max_depth)) = true
    · rw [if_pos hg]
      exact ⟨[], rfl⟩
    · rw [if_neg hg]
      apply entries_lines_ok
      intro i hi hreal F1
      have hi1 : i < (get_directory_entries fs path options.show_hidden).length :=
        List.mem_range.1 hi
      have hmem : (get_directory_entries fs path options.show_hidden).getD i [] ∈
          get_directory_entries fs path options.show_hidden := by
        rw [List.getD_eq_getElem _ _ hi1]
        exact List.getElem_mem hi1
      simp only [nesting_bounded, List.all_eq_true] at hb
      have := hb _ hmem
      rw [hreal] at this
      simp only [Bool.not_true, Bool.false_or] at this
      exact ih _ F1 (depth + 1) this

/-! ## The reference walker -/

theorem entries_lines_eq_render (fs : FileSystem) (options : TreeOptions)
    (hd : options.dir_only = false) (recurse : Walker) (visit : Renderer)
    (path : Str) (depth : Int) (entries : List Str) (anc : List Bool)
    (hv : ∀ p v, recurse p (anc ++ [v] ++ [true]) (depth + 1) = visit p (anc ++ [v])) :
    ∀ idxs : List Nat,
      entries_lines fs options recurse path depth entries anc idxs =
        render_entries fs options visit path anc entries idxs := by
  intro idxs
  induction idxs with
  | nil => rfl
  | cons i rest ih =>
    simp only [entries_lines, render_entries, ih, entry_lines, render_entry, hd, hv]
    generalize is_directory fs (path ++ slash ++ entries.getD i []) = d
    generalize is_symlink fs (path ++ slash ++ entries.getD i []) = l
    cases d <;> cases l <;> rfl

/-- C3: with `dir_only` off, the lines of `print_tree` are those of the reference walker, in
which the line of an entry at depth `d` is made of the `d` segments of its ancestors' flags
(four spaces iff the ancestor at that depth is the final entry of its parent's listing) and
of the entry's own connector (the last connector iff the entry is the final entry of the
listing), wrapped in the colour sequences for a directory; the flags of the ancestors are
the same for all entries of one directory. When the nesting of real directories below the
starting path is bounded by `h`, every fuel above `h` gives these lines. -/
theorem print_tree_eq_render (fs : FileSystem) (options : TreeOptions)
    (hd : options.dir_only = false) (fuel : Nat) (path : Str) :
    print_tree_wrapper fs options fuel path = render fs options fuel path [] ∧
    (∀ (F : List Bool), print_tree fs options fuel path F (F.dropLast.length : Int) =
      render fs options fuel path F.dropLast) ∧
    (∀ h, nesting_bounded fs options.show_hidden h path = true →
      ∃ lines, ∀ extra,
        print_tree_wrapper fs options (h + 1 + extra) path = .ok lines ∧
        render fs options (h + 1 + extra) path [] = .ok lines) := by
  have key : ∀ (fuel : Nat) (path : Str) (F : List Bool),
      print_tree fs options fuel path F (F.dropLast.length : Int) =
        render fs options fuel path F.dropLast := by
    intro fuel
    induction fuel with
    | zero => intro path F; rfl
    | succ fuel ih =>
      intro path F
      rw [print_tree_succ, render]
      have hshown : displayed fs options path =
          get_directory_entries fs path options.show_hidden := by
        simp [displayed, hd]
      dsimp only
      rw [hshown]
      split
      · rfl
      · apply entries_lines_eq_render fs options hd
        intro p v
        have h := ih p (F.dropLast ++ [v] ++ [true])
        simp only [List.dropLast_concat, List.length_append, List.length_singleton,
          Nat.cast_add, Nat.cast_one] at h
        exact h
  refine ⟨key fuel path [], key fuel path, ?_⟩
  intro h hb
  obtain ⟨lines, hlines⟩ := print_tree_of_nesting_bounded fs options h path [] 0 hb
  refine ⟨lines, fun extra => ?_⟩
  have hrun := print_tree_fuel_add fs options (h + 1) path [] 0 lines hlines extra
  exact ⟨hrun, (key (h + 1 + extra) path []).symm.trans hrun⟩

theorem print_tree_eq_render_witness :
    options_default.dir_only = false ∧
    print_tree_wrapper fs_walk options_default 3 (ascii "r") =
      render fs_walk options_default 3 (ascii "r") [] ∧
    render fs_walk options_default 3 (ascii "r") [] =
      .ok [
        blue ++ mid_connector ++ reset ++ ascii "lnk -> sub\n",
        blue ++ mid_connector ++ reset ++ ascii "sub\n",
        blue ++ (bar_segment ++ mid_connector) ++ reset ++ ascii "deep\n",
        bar_segment ++ bar_segment ++ last_connector ++ ascii "y\n",
        bar_segment ++ last_connector ++ ascii "x\n",
        blue ++ mid_connector ++ reset ++ ascii "z\n",
        last_connector ++ ascii "file.txt\n"] ∧
    nesting_bounded fs_walk options_default.show_hidden 2 (ascii "r") = true ∧
    ∃ lines, ∀ extra,
      print_tree_wrapper fs_walk options_default (2 + 1 + extra) (ascii "r") = .ok lines ∧
      render fs_walk options_default (2 + 1 + extra) (ascii "r") [] = .ok lines :=
  ⟨rfl, (print_tree_eq_render fs_walk options_default rfl 3 (ascii "r")).1, by rfl,
    by decide!,
    (print_tree_eq_render fs_walk options_default rfl 3 (ascii "r")).2.2 2 (by decide!)⟩

/-- C4: on the directory holding `sub/` and `file.txt`, with `dir_only` on, `print_tree`
writes the one line of `sub` with the connector of an entry that has a later sibling, whereas
the reference walker, which takes the displayed set, gives it the last connector. -/
theorem dir_only_connector_against_raw_listing :
    print_tree_wrapper fs_pair { options_default with dir_only := true } 2 (ascii "r") =
      .ok [blue ++ mid_connector ++ reset ++ ascii "sub\n"] ∧
    render fs_pair { options_default with dir_only := true } 2 (ascii "r") [] =
      .ok [blue ++ last_connector ++ reset ++ ascii "sub\n"] :=
  ⟨by rfl, by rfl⟩

/-! ## The depth limit -/

theorem list_directory_eq (fs : FileSystem) (options : TreeOptions) (recurse : Walker)
    (path : Str) (F : List Bool) (depth : Int) :
    list_directory fs options recurse path F depth =
      entries_lines fs options recurse path depth
        (get_directory_entries fs path options.show_hidden) F.dropLast
        (List.range (get_directory_entries fs path options.show_hidden).length) := by
  have h := print_entries_lines fs options recurse path depth
    (get_directory_entries fs path options.show_hidden)
    (List.range (get_directory_entries fs path options.show_hidden).length) F []
  simp only [List.nil_append] at h
  have hid : ∀ q : Except Fault (List Str), q.map (fun ls => ls) = q := by
    intro q; cases q <;> rfl
  rw [hid] at h
  rw [← h]
  unfold list_directory
  dsimp only
  generalize print_entries fs options recurse path depth
    (get_directory_entries fs path options.show_hidden)
    (List.range (get_directory_entries fs path options.show_hidden).length) (F, []) = r
  cases r <;> rfl

theorem entries_lines_congr (fs : FileSystem) (options : TreeOptions) (r1 r2 : Walker)
    (path : Str) (depth : Int) (entries : List Str) (anc : List Bool)
    (h : ∀ p F, is_symlink fs p = false → r1 p F (depth + 1) = r2 p F (depth + 1)) :
    ∀ idxs : List Nat,
      entries_lines fs options r1 path depth entries anc idxs =
        entries_lines fs options r2 path depth entries anc idxs := by
  intro idxs
  induction idxs with
  | nil => rfl
  | cons i rest ih =>
    simp only [entries_lines, ih, entry_lines]
    cases hl : is_symlink fs (path ++ slash ++ entries.getD i [])
    · rw [h _ _ hl]
    · simp

theorem print_tree_levels (fs : FileSystem) (options : TreeOptions) (N : Nat)
    (hN : options.max_depth = (N : Int)) :
    ∀ (k d fuel : Nat) (path : Str) (F : List Bool), d + k = N + 1 → k < fuel →
      print_tree fs options fuel path F (d : Int) = show_levels fs options k path F (d : Int) := by
  intro k
  induction k with
  | zero =>
    intro d fuel path F hd hfuel
    obtain ⟨fuel, rfl⟩ : ∃ f, fuel = f + 1 := ⟨fuel - 1, by omega⟩
    rw [print_tree_succ, hN]
    have hg : ((N : Int) != -1 && decide ((d : Int) > (N : Int))) = true := by
      have h1 : (N : Int) ≠ -1 := by omega
      have h2 : (d : Int) > (N : Int) := by omega
      simp [h1, h2]
    rw [if_pos hg]
    rfl
  | succ k ih =>
    intro d fuel path F hd hfuel
    obtain ⟨fuel, rfl⟩ : ∃ f, fuel = f + 1 := ⟨fuel - 1, by omega⟩
    rw [print_tree_succ, hN]
    have hg : ¬ ((N : Int) != -1 && decide ((d : Int) > (N : Int))) = true := by
      have h2 : ¬ (d : Int) > (N : Int) := by omega
      simp [h2]
    rw [if_neg hg, show_levels, list_directory_eq]
    apply entries_lines_congr
    intro p F1 _
    have := ih (d + 1) fuel p F1 (by omega) (by omega)
    simpa using this

theorem show_levels_ok (fs : FileSystem) (options : TreeOptions) :
    ∀ (k : Nat) (path : Str) (F : List Bool) (depth : Int),
      ∃ lines, show_levels fs options k path F depth = .ok lines := by
  intro k
  induction k with
  | zero => intro path F depth; exact ⟨[], rfl⟩
  | succ k ih =>
    intro path F depth
    rw [show_levels, list_directory_eq]
    apply entries_lines_ok
    intro i _ _ F1
    exact ih _ F1 (depth + 1)

/-- C5 fails as stated: with `max_depth = 0` the root's immediate children are listed, and
with `max_depth = 1` the grandchildren `deep` and `x` are listed too. -/
theorem max_depth_lists_one_level_more :
    main fs_walk { options_default with max_depth := 0 } 2 =
      .ok { status := 0,
            stdout := ascii "r\n" ++
              (blue ++ mid_connector ++ reset ++ ascii "lnk -> sub\n") ++
              (blue ++ mid_connector ++ reset ++ ascii "sub\n") ++
              (blue ++ mid_connector ++ reset ++ ascii "z\n") ++
              (last_connector ++ ascii "file.txt\n"),
            stderr := [] } ∧
    print_tree_wrapper fs_walk { options_default with max_depth := 0 } 2 (ascii "r") ≠ .ok [] ∧
    print_tree_wrapper fs_walk { options_default with max_depth := 1 } 3 (ascii "r") =
      .ok [
        blue ++ mid_connector ++ reset ++ ascii "lnk -> sub\n",
        blue ++ mid_connector ++ reset ++ ascii "sub\n",
        blue ++ (bar_segment ++ mid_connector) ++ reset ++ ascii "deep\n",
        bar_segment ++ last_connector ++ ascii "x\n",
        blue ++ mid_connector ++ reset ++ ascii "z\n",
        last_connector ++ ascii "file.txt\n"] := by
  refine ⟨by decide!, ?_, by decide!⟩
  intro h
  have h2 : print_tree_wrapper fs_walk { options_default with max_depth := 0 } 2 (ascii "r") =
      .ok [
        blue ++ mid_connector ++ reset ++ ascii "lnk -> sub\n",
        blue ++ mid_connector ++ reset ++ ascii "sub\n",
        blue ++ mid_connector ++ reset ++ ascii "z\n",
        last_connector ++ ascii "file.txt\n"] := by decide!
  rw [h2] at h
  simp at h

/-! ## Symbolic links -/

theorem get_directory_entries_without_symlink_listings (fs : FileSystem) (path : Str)
    (show_hidden : Bool) (hl : is_symlink fs path = false) :
    get_directory_entries (without_symlink_listings fs) path show_hidden =
      get_directory_entries fs path show_hidden := by
  have hr : (without_symlink_listings fs).readdir path = fs.readdir path := by
    simp [without_symlink_listings, hl]
  unfold get_directory_entries
  rw [hr]
  rfl

theorem entries_lines_without_symlink_listings (fs : FileSystem) (options : TreeOptions)
    (recurse : Walker) (path : Str) (depth : Int) (entries : List Str) (anc : List Bool)
    (idxs : List Nat) :
    entries_lines (without_symlink_listings fs) options recurse path depth entries anc idxs =
      entries_lines fs options recurse path depth entries anc idxs := by
  induction idxs with
  | nil => rfl
  | cons i rest ih =>
    simp only [entries_lines, ih]
    rfl

theorem print_tree_without_symlink_listings (fs : FileSystem) (options : TreeOptions) :
    ∀ (fuel : Nat) (path : Str) (F : List Bool) (depth : Int), is_symlink fs path = false →
      print_tree fs options fuel path F depth =
        print_tree (without_symlink_listings fs) options fuel path F depth := by
  intro fuel
  induction fuel with
  | zero => intro path F depth _; rfl
  | succ fuel ih =>
    intro path F depth hl
    rw [print_tree_succ, print_tree_succ,
      get_directory_entries_without_symlink_listings fs path _ hl,
      entries_lines_without_symlink_listings]
    split
    · rfl
    · apply entries_lines_congr
      intro p F1 hp
      exact ih p F1 (depth + 1) hp

/-- C6: a symbolic link is printed as a leaf. The loop body at an entry that is a symbolic
link writes at most the one line of the entry and does not make the recursive call, whatever
the link points to; and the lines of a whole walk are the same as on the file system in which
no symbolic link can be opened as a directory, so nothing beneath a link is ever listed. -/
theorem symlink_entry_is_leaf (fs : FileSystem) (options : TreeOptions) :
    (∀ (recurse : Walker) (path : Str) (depth : Int) (entries : List Str) (i : Nat)
        (F : List Bool) (out : List Str),
      is_symlink fs (path ++ slash ++ entries.getD i []) = true →
      print_entry fs options recurse path depth entries i (F, out) =
        if options.dir_only && !is_directory fs (path ++ slash ++ entries.getD i []) then
          .ok (F, out)
        else
          .ok (F.dropLast ++ [decide (i = entries.length - 1)],
            out ++ [entry_line fs options path F.dropLast (entries.getD i [])
              (decide (i = entries.length - 1))])) ∧
    (∀ (fuel : Nat) (path : Str) (F : List Bool) (depth : Int), is_symlink fs path = false →
      print_tree fs options fuel path F depth =
        print_tree (without_symlink_listings fs) options fuel path F depth) := by
  refine ⟨?_, print_tree_without_symlink_listings fs options⟩
  intro recurse path depth entries i F out hl
  rw [print_entry_eq, hl]
  simp

theorem symlink_entry_is_leaf_witness :
    is_symlink fs_walk (ascii "r" ++ slash ++
        (get_directory_entries fs_walk (ascii "r") false).getD 0 []) = true ∧
    is_directory fs_walk (ascii "r/lnk") = true ∧
    print_entry fs_walk options_default (fun _ _ _ => .error .out_of_fuel) (ascii "r") 0
        (get_directory_entries fs_walk (ascii "r") false) 0 ([], []) =
      .ok ([false], [blue ++ mid_connector ++ reset ++ ascii "lnk -> sub\n"]) ∧
    is_symlink fs_walk (ascii "r") = false ∧
    print_tree fs_walk options_default 3 (ascii "r") [] 0 =
      print_tree (without_symlink_listings fs_walk) options_default 3 (ascii "r") [] 0 := by
  have h := symlink_entry_is_leaf fs_walk options_default
  refine ⟨by decide, by decide, ?_, by decide, h.2 3 (ascii "r") [] 0 (by decide)⟩
  rw [h.1 _ _ _ _ _ _ _ (by decide)]
  decide!

theorem read_symlink_of_target (fs : FileSystem) (path t : Str)
    (ht : fs.readlink path = some t) (hz : 0 ∉ t) : read_symlink fs path = t.take 1023 := by
  unfold read_symlink
  rw [ht]
  simp only []
  rw [List.takeWhile_eq_self_iff]
  intro b hb
  have hb1 : b ∈ t := List.mem_of_mem_take hb
  have : b ≠ 0 := fun h => hz (h ▸ hb1)
  simpa using this

theorem read_symlink_of_failure (fs : FileSystem) (path : Str)
    (ht : fs.readlink path = none) : read_symlink fs path = [] := by
  unfold read_symlink
  rw [ht]

/-- C7 (amended): for a displayed entry, with `pre` the prefix that `get_tree_prefix` gives
and `name` the bare name or the full path: the line of a symbolic link whose target has at
most 1023 bytes is `pre ++ name ++ " -> " ++ target`; a longer target is cut to its first
1023 bytes; when reading the target fails the line ends after `" -> "`; and the line of an
entry that is not a symbolic link is `pre ++ name`, with no arrow. (Targets are path names
and hold no zero byte.) -/
theorem symlink_line (fs : FileSystem) (options : TreeOptions) (recurse : Walker)
    (path : Str) (depth : Int) (entries : List Str) (i : Nat) (F : List Bool) (out : List Str)
    (hshown :
      (options.dir_only && !is_directory fs (path ++ slash ++ entries.getD i [])) = false) :
    ∃ pre name F1,
      get_tree_prefix (F.dropLast ++ [decide (i = entries.length - 1)])
        (is_directory fs (path ++ slash ++ entries.getD i [])) = .ok pre ∧
      name = (if options.full_path then path ++ slash ++ entries.getD i []
        else entries.getD i []) ∧
      F1 = F.dropLast ++ [decide (i = entries.length - 1)] ∧
      (is_symlink fs (path ++ slash ++ entries.getD i []) = true →
        (∀ t, fs.readlink (path ++ slash ++ entries.getD i []) = some t → 0 ∉ t →
          t.length ≤ 1023 →
          print_entry fs options recurse path depth entries i (F, out) =
            .ok (F1, out ++ [pre ++ name ++ arrow ++ t ++ newline])) ∧
        (∀ t, fs.readlink (path ++ slash ++ entries.getD i []) = some t → 0 ∉ t →
          1023 < t.length →
          print_entry fs options recurse path depth entries i (F, out) =
            .ok (F1, out ++ [pre ++ name ++ arrow ++ t.take 1023 ++ newline])) ∧
        (fs.readlink (path ++ slash ++ entries.getD i []) = none →
          print_entry fs options recurse path depth entries i (F, out) =
            .ok (F1, out ++ [pre ++ name ++ arrow ++ [] ++ newline]))) ∧
      (is_symlink fs (path ++ slash ++ entries.getD i []) = false →
        print_entry fs options recurse path depth entries i (F, out) =
          match (if is_directory fs (path ++ slash ++ entries.getD i []) then
              recurse (path ++ slash ++ entries.getD i []) (F1 ++ [true]) (depth + 1)
            else .ok []) with
          | .error e => .error e
          | .ok sub => .ok (F1, out ++ [pre ++ name ++ newline] ++ sub)) := by
  refine ⟨_, _, _, get_tree_prefix_snoc _ _ _, rfl, rfl, ?_, ?_⟩
  · intro hl
    have hform : ∀ tgt, read_symlink fs (path ++ slash ++ entries.getD i []) = tgt →
        print_entry fs options recurse path depth entries i (F, out) =
          .ok (F.dropLast ++ [decide (i = entries.length - 1)],
            out ++ [(if is_directory fs (path ++ slash ++ entries.getD i []) = true then
                blue ++ ((F.dropLast.map segment).flatten ++
                  connector (decide (i = entries.length - 1))) ++ reset
              else (F.dropLast.map segment).flatten ++
                connector (decide (i = entries.length - 1))) ++
              (if options.full_path = true then path ++ slash ++ entries.getD i []
                else entries.getD i []) ++ arrow ++ tgt ++ newline]) := by
      intro tgt htgt
      rw [print_entry_eq, hshown, hl]
      simp only [Bool.false_eq_true, if_false, Bool.not_true, Bool.and_false, entry_line,
        display_name, colour, hl, if_true, htgt]
      simp only [List.append_assoc]
    refine ⟨?_, ?_, ?_⟩
    · intro t ht hz hlen
      rw [hform t]
      rw [read_symlink_of_target fs _ t ht hz, List.take_of_length_le hlen]
    · intro t ht hz _
      exact hform _ (read_symlink_of_target fs _ t ht hz)
    · intro ht
      exact hform _ (read_symlink_of_failure fs _ ht)
  · intro hl
    rw [print_entry_eq, hshown, hl]
    simp only [Bool.false_eq_true, if_false, Bool.not_false, Bool.and_true, entry_line,
      display_name, colour, hl, List.append_nil]
    cases hd : is_directory fs (path ++ slash ++ entries.getD i [])
    · simp
    · simp only [if_true]

/-- C7 fails as stated: a target of 1024 bytes is shown cut to 1023 bytes. -/
theorem long_target_is_cut :
    fs_long_link.readlink (ascii "r/l") = some (List.replicate 1024 97) ∧
    print_tree_wrapper fs_long_link options_default 1 (ascii "r") =
      .ok [last_connector ++ ascii "l" ++ arrow ++ List.replicate 1023 97 ++ newline] ∧
    print_tree_wrapper fs_long_link options_default 1 (ascii "r") ≠
      .ok [last_connector ++ ascii "l" ++ arrow ++ List.replicate 1024 97 ++ newline] := by
  decide!

theorem symlink_line_witness :
    (options_default.dir_only &&
      !is_directory fs_walk (ascii "r" ++ slash ++ [ascii "lnk", ascii "sub"].getD 0 [])) = false ∧
    fs_walk.readlink (ascii "r" ++ slash ++ [ascii "lnk", ascii "sub"].getD 0 []) =
      some (ascii "sub") ∧
    print_entry fs_walk options_default (fun _ _ _ => .ok []) (ascii "r") 0
        [ascii "lnk", ascii "sub"] 0 ([], []) =
      .ok ([false], [blue ++ mid_connector ++ reset ++ ascii "lnk" ++ arrow ++ ascii "sub" ++
        newline]) := by
  obtain ⟨pre, name, F1, hpre, hname, hF1, hsym, _⟩ :=
    symlink_line fs_walk options_default (fun _ _ _ => .ok []) (ascii "r") 0
      [ascii "lnk", ascii "sub"] 0 [] [] (by decide)
  have h := (hsym (by decide)).1 (ascii "sub") (by decide) (by decide) (by decide)
  have hp : get_tree_prefix [false] true = .ok (blue ++ mid_connector ++ reset) := by decide
  have hpre1 : get_tree_prefix [false] true = .ok pre := hpre
  rw [hp] at hpre1
  injection hpre1 with hpre2
  subst hpre2 hF1
  have hn : name = ascii "lnk" := hname
  subst hn
  exact ⟨by decide, by decide, h⟩

/-! ## Directories only -/

theorem is_directory_line_entry_line (fs : FileSystem) (options : TreeOptions) (path : Str)
    (anc : List Bool) (entry : Str) (last : Bool) :
    is_directory_line (entry_line fs options path anc entry last) =
      is_directory fs (path ++ slash ++ entry) := by
  unfold entry_line colour is_directory_line
  cases is_directory fs (path ++ slash ++ entry)
  · cases anc with
    | nil => cases last <;> rfl
    | cons a rest => cases a <;> rfl
  · rfl

theorem entries_lines_dir_only (fs : FileSystem) (options : TreeOptions) (rt rf : Walker)
    (path : Str) (depth : Int) (entries : List Str) (anc : List Bool)
    (h : ∀ p F, rt p F (depth + 1) = (rf p F (depth + 1)).map (List.filter is_directory_line)) :
    ∀ idxs : List Nat,
      entries_lines fs { options with dir_only := true } rt path depth entries anc idxs =
        (entries_lines fs { options with dir_only := false } rf path depth entries anc idxs).map
          (List.filter is_directory_line) := by
  intro idxs
  induction idxs with
  | nil => rfl
  | cons i rest ih =>
    have hline : ∀ last, entry_line fs { options with dir_only := true } path anc
        (entries.getD i []) last =
        entry_line fs { options with dir_only := false } path anc (entries.getD i []) last :=
      fun _ => rfl
    have hmark := is_directory_line_entry_line fs { options with dir_only := false } path anc
      (entries.getD i []) (decide (i = entries.length - 1))
    simp only [entries_lines, ih, entry_lines, h, hline]
    generalize entries_lines fs { options with dir_only := false } rf path depth entries anc
      rest = others
    generalize rf (path ++ slash ++ entries.getD i [])
      (anc ++ [decide (i = entries.length - 1)] ++ [true]) (depth + 1) = below
    generalize entry_line fs { options with dir_only := false } path anc (entries.getD i [])
      (decide (i = entries.length - 1)) = line at hmark ⊢
    generalize is_directory fs (path ++ slash ++ entries.getD i []) = d at hmark ⊢
    generalize is_symlink fs (path ++ slash ++ entries.getD i []) = l
    cases d <;> cases l <;> cases others <;> cases below <;>
      simp [Except.map, List.filter_cons, hmark]

/-- C9: with `dir_only` on, the loop body writes nothing for an entry that is not classified
as a directory and leaves the state as it was; and the lines of a whole walk are exactly the
lines of directory entries (those that begin with the colour sequence) of the walk without
the filter, in the same order: every directory entry reached without the filter is still
written and, unless it is a symbolic link, entered. When the nesting of real directories is
bounded by `h`, every fuel above `h` gives both walks their lines. -/
theorem dir_only_lines (fs : FileSystem) (options : TreeOptions) :
    (∀ (recurse : Walker) (path : Str) (depth : Int) (entries : List Str) (i : Nat)
        (st : WalkState),
      is_directory fs (path ++ slash ++ entries.getD i []) = false →
      print_entry fs { options with dir_only := true } recurse path depth entries i st =
        .ok st) ∧
    (∀ (path : Str) (anc : List Bool) (entry : Str) (last : Bool),
      is_directory_line (entry_line fs options path anc entry last) =
        is_directory fs (path ++ slash ++ entry)) ∧
    (∀ (fuel : Nat) (path : Str) (F : List Bool) (depth : Int),
      print_tree fs { options with dir_only := true } fuel path F depth =
        (print_tree fs { options with dir_only := false } fuel path F depth).map
          (List.filter is_directory_line)) ∧
    (∀ (h : Nat) (path : Str) (F : List Bool) (depth : Int),
      nesting_bounded fs options.show_hidden h path = true →
      ∃ all, ∀ extra,
        print_tree fs { options with dir_only := false } (h + 1 + extra) path F depth =
          .ok all ∧
        print_tree fs { options with dir_only := true } (h + 1 + extra) path F depth =
          .ok (all.filter is_directory_line)) := by
  have key : ∀ (fuel : Nat) (path : Str) (F : List Bool) (depth : Int),
      print_tree fs { options with dir_only := true } fuel path F depth =
        (print_tree fs { options with dir_only := false } fuel path F depth).map
          (List.filter is_directory_line) := by
    intro fuel
    induction fuel with
    | zero => intro path F depth; rfl
    | succ fuel ih =>
      intro path F depth
      rw [print_tree_succ, print_tree_succ]
      dsimp only
      split
      · rfl
      · exact entries_lines_dir_only fs options _ _ path depth _ _
          (fun p F1 => ih p F1 (depth + 1)) _
  refine ⟨?_, is_directory_line_entry_line fs options, key, ?_⟩
  · intro recurse path depth entries i st hd
    obtain ⟨F, out⟩ := st
    rw [print_entry_eq]
    simp only [hd]
    simp
  · intro h path F depth hb
    obtain ⟨all, hall⟩ :=
      print_tree_of_nesting_bounded fs { options with dir_only := false } h path F depth hb
    refine ⟨all, fun extra => ?_⟩
    have hrun := print_tree_fuel_add fs { options with dir_only := false } (h + 1) path F depth
      all hall extra
    refine ⟨hrun, ?_⟩
    rw [key, hrun]
    rfl

theorem dir_only_lines_witness :
    is_directory fs_pair (ascii "r" ++ slash ++ [ascii "sub", ascii "file.txt"].getD 1 []) =
      false ∧
    print_entry fs_pair { options_default with dir_only := true } (fun _ _ _ => .ok [])
        (ascii "r") 0 [ascii "sub", ascii "file.txt"] 1 ([false], []) = .ok ([false], []) ∧
    print_tree fs_pair { options_default with dir_only := true } 2 (ascii "r") [] 0 =
      (print_tree fs_pair { options_default with dir_only := false } 2 (ascii "r") [] 0).map
        (List.filter is_directory_line) ∧
    print_tree fs_pair { options_default with dir_only := false } 2 (ascii "r") [] 0 =
      .ok [blue ++ mid_connector ++ reset ++ ascii "sub\n", last_connector ++ ascii "file.txt\n"] ∧
    print_tree fs_pair { options_default with dir_only := true } 2 (ascii "r") [] 0 =
      .ok [blue ++ mid_connector ++ reset ++ ascii "sub\n"] := by
  have h := dir_only_lines fs_pair options_default
  exact ⟨by decide, h.1 _ _ _ _ _ _ (by decide), h.2.2.1 2 (ascii "r") [] 0, by decide!,
    by decide!⟩

/-! ## The line of the starting path -/

theorem mem_get_directory_entries (fs : FileSystem) (path : Str) (show_hidden : Bool)
    (entry : Str) (h : entry ∈ get_directory_entries fs path show_hidden) :
    ∃ names, fs.readdir path = some names ∧ entry ∈ names ∧ qualifies show_hidden entry = true := by
  cases hr : fs.readdir path with
  | none => simp [get_directory_entries, hr] at h
  | some names =>
    rw [get_directory_entries_of_readdir fs path show_hidden names hr] at h
    have h1 := (sort_entries_perm fs path _).mem_iff.1 h
    rw [List.mem_filter] at h1
    exact ⟨names, rfl, h1.1, h1.2⟩

theorem entries_lines_all_skipped (fs : FileSystem) (options : TreeOptions) (recurse : Walker)
    (path : Str) (depth : Int) (entries : List Str) (anc : List Bool)
    (hskip : ∀ e ∈ entries, (options.dir_only && !is_directory fs (path ++ slash ++ e)) = true) :
    ∀ idxs : List Nat, (∀ i ∈ idxs, i < entries.length) →
      entries_lines fs options recurse path depth entries anc idxs = .ok [] := by
  intro idxs
  induction idxs with
  | nil => intro _; rfl
  | cons i rest ih =>
    intro hidx
    have hi : i < entries.length := hidx i (List.mem_cons_self _ _)
    have hmem : entries.getD i [] ∈ entries := by
      rw [List.getD_eq_getElem _ _ hi]
      exact List.getElem_mem hi
    simp only [entries_lines, entry_lines, hskip _ hmem, if_true,
      ih (fun j hj => hidx j (List.mem_cons_of_mem _ hj)), List.append_nil]

/-- C10: when the starting path exists and its directory has no qualifying entry (it cannot be
read, or every name read is `.`, `..`, hidden while hidden entries are not shown, or a
non-directory while only directories are listed), a run with any fuel ends with status 0 and
standard output exactly the starting path and one newline; and in every run that ends with
status 0 the output begins with the starting path and a newline. -/
theorem main_root_line (fs : FileSystem) (options : TreeOptions) :
    (fs.access options.start_path = true →
      (∀ names, fs.readdir options.start_path = some names → ∀ name ∈ names,
        qualifies options.show_hidden name = true →
        options.dir_only = true ∧
          is_directory fs (options.start_path ++ slash ++ name) = false) →
      ∀ fuel, main fs options (fuel + 1) =
        .ok { status := 0, stdout := options.start_path ++ newline, stderr := [] }) ∧
    (∀ fuel r, main fs options fuel = .ok r → r.status = 0 →
      ∃ rest, r.stdout = options.start_path ++ newline ++ rest) := by
  constructor
  · intro hacc hnone fuel
    have hlines : print_tree_wrapper fs options (fuel + 1) options.start_path = .ok [] := by
      unfold print_tree_wrapper
      rw [print_tree_succ]
      split
      · rfl
      · apply entries_lines_all_skipped
        · intro e he
          obtain ⟨names, hr, hmem, hq⟩ := mem_get_directory_entries fs _ _ e he
          obtain ⟨h1, h2⟩ := hnone names hr e hmem hq
          rw [h1, h2]
          rfl
        · intro i hi
          exact List.mem_range.1 hi
    simp [main, hacc, hlines]
  · intro fuel r hmain hstatus
    unfold main at hmain
    cases hacc : fs.access options.start_path
    · simp only [hacc, Bool.not_false, if_true] at hmain
      injection hmain with hr
      rw [← hr] at hstatus
      simp at hstatus
    · simp only [hacc, Bool.not_true, Bool.false_eq_true, if_false] at hmain
      cases hw : print_tree_wrapper fs options fuel options.start_path with
      | error e => simp [hw] at hmain
      | ok lines =>
        simp only [hw] at hmain
        injection hmain with hr
        exact ⟨lines.flatten, by rw [← hr]⟩

theorem main_root_line_witness :
    fs_walk.access (ascii "r/z") = true ∧
    fs_walk.readdir (ascii "r/z") = some [ascii ".", ascii ".."] ∧
    main fs_walk { options_default with start_path := ascii "r/z" } 1 =
      .ok { status := 0, stdout := ascii "r/z\n", stderr := [] } := by
  refine ⟨by decide, by decide, ?_⟩
  refine (main_root_line fs_walk { options_default with start_path := ascii "r/z" }).1
    (by decide) ?_ 0
  intro names hnames name hname hq
  have hn : names = [ascii ".", ascii ".."] := by
    have h2 : fs_walk.readdir (ascii "r/z") = some [ascii ".", ascii ".."] := by decide
    have h3 : fs_walk.readdir (ascii "r/z") = some names := hnames
    rw [h2] at h3
    injection h3 with h4
    exact h4.symm
  subst hn
  simp only [List.mem_cons, List.mem_singleton, List.not_mem_nil, or_false] at hname
  rcases hname with rfl | rfl
  · exact absurd hq (by decide)
  · exact absurd hq (by decide)

/-! ## Walks on two file systems -/

theorem entries_lines_same_answers (fs1 fs2 : FileSystem) (options : TreeOptions)
    (hstat : fs1.stat = fs2.stat) (hlstat : fs1.lstat = fs2.lstat)
    (hlink : fs1.readlink = fs2.readlink) (recurse : Walker)
    (path : Str) (depth : Int) (entries : List Str) (anc : List Bool) (idxs : List Nat) :
    entries_lines fs1 options recurse path depth entries anc idxs =
      entries_lines fs2 options recurse path depth entries anc idxs := by
  induction idxs with
  | nil => rfl
  | cons i rest ih =>
    simp only [entries_lines, ih, entry_lines, entry_line, display_name, is_directory,
      is_symlink, read_symlink, hstat, hlstat, hlink]

theorem print_tree_same_answers (fs1 fs2 : FileSystem) (options : TreeOptions)
    (hstat : fs1.stat = fs2.stat) (hlstat : fs1.lstat = fs2.lstat)
    (hlink : fs1.readlink = fs2.readlink)
    (hdir : ∀ p, get_directory_entries fs1 p options.show_hidden =
      get_directory_entries fs2 p options.show_hidden) :
    ∀ (fuel : Nat) (path : Str) (F : List Bool) (depth : Int),
      print_tree fs1 options fuel path F depth = print_tree fs2 options fuel path F depth := by
  intro fuel
  induction fuel with
  | zero => intro path F depth; rfl
  | succ fuel ih =>
    intro path F depth
    rw [print_tree_succ, print_tree_succ, hdir path,
      entries_lines_same_answers fs1 fs2 options hstat hlstat hlink]
    split
    · rfl
    · apply entries_lines_congr
      intro p F1 _
      exact ih p F1 (depth + 1)

theorem sort_entries_same_stat (fs1 fs2 : FileSystem) (hstat : fs1.stat = fs2.stat)
    (path : Str) (entries : List Str) :
    sort_entries fs1 path entries = sort_entries fs2 path entries := by
  have hc : ∀ a b, compare_entries fs1 a b path = compare_entries fs2 a b path := by
    intro a b
    simp only [compare_entries, is_dir_entry, is_directory, hstat]
  have hs : sort_step fs1 path = sort_step fs2 path := by
    funext i es j
    simp only [sort_step, hc]
  have hi : sort_inner fs1 path = sort_inner fs2 path := by
    funext i es
    simp only [sort_inner, hs]
  simp only [sort_entries, hi]

theorem get_directory_entries_with_empty_directory (fs : FileSystem) (dir : Str)
    (hdir : fs.readdir dir = none) (p : Str) (show_hidden : Bool) :
    get_directory_entries fs p show_hidden =
      get_directory_entries (with_empty_directory fs dir) p show_hidden := by
  by_cases hp : p = dir
  · subst hp
    have h2 : (with_empty_directory fs p).readdir p = some [dot, dotdot] := by
      simp [with_empty_directory]
    simp only [get_directory_entries, hdir, h2]
    cases show_hidden <;> rfl
  · have h2 : (with_empty_directory fs dir).readdir p = fs.readdir p := by
      simp [with_empty_directory, hp]
    simp only [get_directory_entries, h2]
    rfl

/-- C12: when a directory cannot be opened, `get_directory_entries` returns the empty sequence
for it, and every walk and every run writes what it writes on the file system in which that
directory can be read and is empty: the line of the directory itself and the lines of its
siblings and ancestors are the same. When the nesting of real directories is bounded by `h`,
every fuel above `h` gives both walks their lines. -/
theorem unreadable_directory_as_empty (fs : FileSystem) (options : TreeOptions) (dir : Str)
    (hdir : fs.readdir dir = none) :
    (∀ show_hidden, get_directory_entries fs dir show_hidden = []) ∧
    (∀ (fuel : Nat) (path : Str) (F : List Bool) (depth : Int),
      print_tree fs options fuel path F depth =
        print_tree (with_empty_directory fs dir) options fuel path F depth) ∧
    (∀ fuel, main fs options fuel = main (with_empty_directory fs dir) options fuel) ∧
    (∀ (h : Nat) (path : Str) (F : List Bool) (depth : Int),
      nesting_bounded fs options.show_hidden h path = true →
      ∃ lines, ∀ extra,
        print_tree fs options (h + 1 + extra) path F depth = .ok lines ∧
        print_tree (with_empty_directory fs dir) options (h + 1 + extra) path F depth =
          .ok lines) := by
  have key : ∀ (fuel : Nat) (path : Str) (F : List Bool) (depth : Int),
      print_tree fs options fuel path F depth =
        print_tree (with_empty_directory fs dir) options fuel path F depth :=
    print_tree_same_answers fs (with_empty_directory fs dir) options rfl rfl rfl
      (fun p => get_directory_entries_with_empty_directory fs dir hdir p _)
  refine ⟨?_, key, ?_, ?_⟩
  · intro show_hidden
    simp [get_directory_entries, hdir]
  · intro fuel
    have hacc : (with_empty_directory fs dir).access = fs.access := rfl
    simp only [main, print_tree_wrapper, hacc, key]
  · intro h path F depth hb
    obtain ⟨lines, hlines⟩ := print_tree_of_nesting_bounded fs options h path F depth hb
    refine ⟨lines, fun extra => ?_⟩
    have hrun := print_tree_fuel_add fs options (h + 1) path F depth lines hlines extra
    exact ⟨hrun, (key _ path F depth).symm.trans hrun⟩

theorem unreadable_directory_as_empty_witness :
    fs_locked.readdir (ascii "r/locked") = none ∧
    get_directory_entries fs_locked (ascii "r/locked") false = [] ∧
    main fs_locked options_default 2 =
      main (with_empty_directory fs_locked (ascii "r/locked")) options_default 2 ∧
    main fs_locked options_default 2 =
      .ok { status := 0,
            stdout := ascii "r\n" ++ (blue ++ mid_connector ++ reset ++ ascii "locked\n") ++
              (last_connector ++ ascii "b\n"),
            stderr := [] } := by
  have h := unreadable_directory_as_empty fs_locked options_default (ascii "r/locked")
    (by decide)
  exact ⟨by decide, h.1 false, h.2.2.1 2, by decide!⟩

/-! ## The order of enumeration -/

theorem sort_entries_of_perm (fs : FileSystem) (path : Str) (a b : List Str) (h : a.Perm b) :
    sort_entries fs path a = sort_entries fs path b := by
  have hanti : IsAntisymm Str (fun x y => compare_entries fs y x path = false) := by
    constructor
    intro x y hxy hyx
    by_contra hne
    rcases compare_entries_connex fs path x y hne with hc | hc
    · rw [hyx] at hc
      exact absurd hc (by simp)
    · rw [hxy] at hc
      exact absurd hc (by simp)
  have hp : (sort_entries fs path a).Perm (sort_entries fs path b) :=
    ((sort_entries_perm fs path a).trans h).trans (sort_entries_perm fs path b).symm
  exact List.eq_of_perm_of_sorted hp (sort_entries_ordered fs path a)
    (sort_entries_ordered fs path b)

theorem get_directory_entries_of_perm (fs1 fs2 : FileSystem) (hstat : fs1.stat = fs2.stat)
    (p : Str) (show_hidden : Bool)
    (hperm : (fs1.readdir p = none ∧ fs2.readdir p = none) ∨
      ∃ a b, fs1.readdir p = some a ∧ fs2.readdir p = some b ∧ a.Perm b) :
    get_directory_entries fs1 p show_hidden = get_directory_entries fs2 p show_hidden := by
  rcases hperm with ⟨h1, h2⟩ | ⟨a, b, h1, h2, hab⟩
  · simp only [get_directory_entries, h1, h2]
  · rw [get_directory_entries_of_readdir fs1 p show_hidden a h1,
      get_directory_entries_of_readdir fs2 p show_hidden b h2,
      sort_entries_same_stat fs1 fs2 hstat]
    exact sort_entries_of_perm fs2 p _ _ (hab.filter _)

/-- C13: two file systems that give the same answers to `stat`, `lstat` and `readlink` and
enumerate every directory with the same names in any two orders make
`get_directory_entries` return the same sequence for every directory, and make every walk
write the same lines. -/
theorem listing_independent_of_enumeration (fs1 fs2 : FileSystem)
    (hstat : fs1.stat = fs2.stat) (hlstat : fs1.lstat = fs2.lstat)
    (hlink : fs1.readlink = fs2.readlink)
    (hperm : ∀ p, (fs1.readdir p = none ∧ fs2.readdir p = none) ∨
      ∃ a b, fs1.readdir p = some a ∧ fs2.readdir p = some b ∧ a.Perm b) :
    (∀ p show_hidden,
      get_directory_entries fs1 p show_hidden = get_directory_entries fs2 p show_hidden) ∧
    (∀ (options : TreeOptions) (fuel : Nat) (path : Str) (F : List Bool) (depth : Int),
      print_tree fs1 options fuel path F depth = print_tree fs2 options fuel path F depth) ∧
    (∀ (options : TreeOptions) (fuel : Nat),
      print_tree_wrapper fs1 options fuel options.start_path =
        print_tree_wrapper fs2 options fuel options.start_path) := by
  have hdir : ∀ p show_hidden,
      get_directory_entries fs1 p show_hidden = get_directory_entries fs2 p show_hidden :=
    fun p show_hidden => get_directory_entries_of_perm fs1 fs2 hstat p show_hidden (hperm p)
  have key : ∀ (options : TreeOptions) (fuel : Nat) (path : Str) (F : List Bool) (depth : Int),
      print_tree fs1 options fuel path F depth = print_tree fs2 options fuel path F depth :=
    fun options => print_tree_same_answers fs1 fs2 options hstat hlstat hlink
      (fun p => hdir p _)
  exact ⟨hdir, key, fun options fuel => key options fuel _ _ _⟩

theorem reversed_enumeration_perm (fs : FileSystem) (p : Str) :
    (fs.readdir p = none ∧ (reversed_enumeration fs).readdir p = none) ∨
      ∃ a b, fs.readdir p = some a ∧ (reversed_enumeration fs).readdir p = some b ∧
        a.Perm b := by
  cases h : fs.readdir p with
  | none => exact Or.inl ⟨rfl, by simp [reversed_enumeration, h]⟩
  | some a =>
    exact Or.inr ⟨a, a.reverse, rfl, by simp [reversed_enumeration, h],
      (List.reverse_perm a).symm⟩

theorem listing_independent_of_enumeration_witness :
    fs_walk.readdir (ascii "r/sub") = some [ascii "x", ascii "deep", ascii ".", ascii ".."] ∧
    (reversed_enumeration fs_walk).readdir (ascii "r/sub") =
      some [ascii "..", ascii ".", ascii "deep", ascii "x"] ∧
    get_directory_entries fs_walk (ascii "r/sub") false =
      get_directory_entries (reversed_enumeration fs_walk) (ascii "r/sub") false ∧
    get_directory_entries fs_walk (ascii "r/sub") false = [ascii "deep", ascii "x"] ∧
    print_tree_wrapper fs_walk options_default 3 (ascii "r") =
      print_tree_wrapper (reversed_enumeration fs_walk) options_default 3 (ascii "r") := by
  have h := listing_independent_of_enumeration fs_walk (reversed_enumeration fs_walk)
    rfl rfl rfl (reversed_enumeration_perm fs_walk)
  exact ⟨by decide, by decide, h.1 _ _, by decide, h.2.2 options_default 3⟩

/-! ## Termination and defined behaviour -/

/-- C17: `print_tree` terminates on every finite directory structure, for every configuration:
when the nesting of real directories (symbolic links not counted, wherever they point) below
the path is bounded by `h`, every fuel above `h` makes the walk end with the same lines; and
each directory entered has a bound one smaller. -/
theorem print_tree_terminates (fs : FileSystem) (options : TreeOptions) :
    (∀ (h : Nat) (path : Str) (F : List Bool) (depth : Int),
      nesting_bounded fs options.show_hidden h path = true →
      ∃ lines, ∀ extra, print_tree fs options (h + 1 + extra) path F depth = .ok lines) ∧
    (∀ (h : Nat) (path entry : Str),
      nesting_bounded fs options.show_hidden (h + 1) path = true →
      entry ∈ get_directory_entries fs path options.show_hidden →
      is_directory fs (path ++ slash ++ entry) = true →
      is_symlink fs (path ++ slash ++ entry) = false →
      nesting_bounded fs options.show_hidden h (path ++ slash ++ entry) = true) ∧
    (∀ (path entry : Str),
      nesting_bounded fs options.show_hidden 0 path = true →
      entry ∈ get_directory_entries fs path options.show_hidden →
      is_directory fs (path ++ slash ++ entry) = true →
      is_symlink fs (path ++ slash ++ entry) = true) := by
  refine ⟨?_, ?_, ?_⟩
  · intro h path F depth hb
    obtain ⟨lines, hlines⟩ := print_tree_of_nesting_bounded fs options h path F depth hb
    exact ⟨lines, fun extra =>
      print_tree_fuel_add fs options (h + 1) path F depth lines hlines extra⟩
  · intro h path entry hb hmem hd hl
    simp only [nesting_bounded, List.all_eq_true] at hb
    have := hb entry hmem
    rw [hd, hl] at this
    simpa using this
  · intro path entry hb hmem hd
    simp only [nesting_bounded, List.all_eq_true] at hb
    have := hb entry hmem
    rw [hd] at this
    simpa using this

theorem print_tree_terminates_witness :
    nesting_bounded fs_cycle false 0 (ascii "r") = true ∧
    is_directory fs_cycle (ascii "r/loop/loop/loop") = true ∧
    (∃ lines, ∀ extra,
      print_tree fs_cycle options_default (0 + 1 + extra) (ascii "r") [] 0 = .ok lines) ∧
    print_tree fs_cycle options_default 1 (ascii "r") [] 0 =
      .ok [blue ++ last_connector ++ reset ++ ascii "loop -> .\n"] ∧
    nesting_bounded fs_walk false 2 (ascii "r") = true ∧
    nesting_bounded fs_walk false 1 (ascii "r/sub") = true :=
  ⟨by decide!, by decide!,
    (print_tree_terminates fs_cycle options_default).1 0 (ascii "r") [] 0 (by decide!),
    by decide!, by decide!,
    (print_tree_terminates fs_walk options_default).2.1 1 (ascii "r") (ascii "sub")
      (by decide!) (by decide!) (by decide!) (by decide!)⟩

theorem get_tree_prefix_fault (F : List Bool) (is_dir : Bool) :
    get_tree_prefix F is_dir = .error .undefined_behaviour ↔ F = [] := by
  cases F with
  | nil => simp [ get_tree_prefix]
  | cons a rest => simp [ get_tree_prefix]

theorem entries_lines_defined (fs : FileSystem) (options : TreeOptions) (recurse : Walker)
    (path : Str) (depth : Int) (entries : List Str) (anc : List Bool)
    (h : ∀ p F, recurse p F (depth + 1) ≠ .error .undefined_behaviour) :
    ∀ idxs : List Nat,
      entries_lines fs options recurse path depth entries anc idxs ≠
        .error .undefined_behaviour := by
  intro idxs
  induction idxs with
  | nil => simp [entries_lines]
  | cons i rest ih =>
    simp only [entries_lines, entry_lines]
    generalize entries_lines fs options recurse path depth entries anc rest = others at ih
    have hr := h (path ++ slash ++ entries.getD i [])
      (anc ++ [decide (i = entries.length - 1)] ++ [true])
    generalize recurse (path ++ slash ++ entries.getD i [])
      (anc ++ [decide (i = entries.length - 1)] ++ [true]) (depth + 1) = below at hr
    generalize (options.dir_only && !is_directory fs (path ++ slash ++ entries.getD i [])) = c1
    generalize (is_directory fs (path ++ slash ++ entries.getD i []) &&
      !is_symlink fs (path ++ slash ++ entries.getD i [])) = c2
    cases c1 <;> cases c2 <;> cases others <;> cases below <;> simp_all

theorem print_tree_defined (fs : FileSystem) (options : TreeOptions) :
    ∀ (fuel : Nat) (path : Str) (F : List Bool) (depth : Int),
      print_tree fs options fuel path F depth ≠ .error .undefined_behaviour := by
  intro fuel
  induction fuel with
  | zero => intro path F depth; simp [print_tree]
  | succ fuel ih =>
    intro path F depth
    rw [print_tree_succ]
    split
    · simp
    · exact entries_lines_defined fs options _ path depth _ _
        (fun p F1 => ih p F1 (depth + 1)) _

/-- C18: `get_tree_prefix` runs into undefined behaviour exactly on an empty flags sequence,
and no call made during a walk receives one: the loop body hands it
`is_last` after the overwrite or push, which is not empty, and a walk from any vector, with
any fuel, never ends in undefined behaviour, nor does a run of `main`. -/
theorem get_tree_prefix_never_empty (fs : FileSystem) (options : TreeOptions) :
    (∀ (F : List Bool) (is_dir : Bool),
      get_tree_prefix F is_dir = .error .undefined_behaviour ↔ F = []) ∧
    (∀ (F : List Bool) (v : Bool),
      (if !F.isEmpty then F.dropLast ++ [v] else F ++ [v]) ≠ []) ∧
    (∀ (recurse : Walker) (path : Str) (depth : Int) (entries : List Str) (i : Nat)
        (st : WalkState),
      (∀ p F d, recurse p F d ≠ .error .undefined_behaviour) →
      print_entry fs options recurse path depth entries i st ≠
        .error .undefined_behaviour) ∧
    (∀ (fuel : Nat) (path : Str) (F : List Bool) (depth : Int),
      print_tree fs options fuel path F depth ≠ .error .undefined_behaviour) ∧
    (∀ (fuel : Nat) (path : Str),
      print_tree_wrapper fs options fuel path ≠ .error .undefined_behaviour) ∧
    (∀ fuel, main fs options fuel ≠ .error .undefined_behaviour) := by
  refine ⟨get_tree_prefix_fault, ?_, ?_, print_tree_defined fs options,
    fun fuel path => print_tree_defined fs options fuel path [] 0, ?_⟩
  · intro F v
    cases F <;> simp
  · intro recurse path depth entries i st h
    obtain ⟨F, out⟩ := st
    rw [print_entry_eq]
    have hr := h (path ++ slash ++ entries.getD i [])
      (F.dropLast ++ [decide (i = entries.length - 1)] ++ [true]) (depth + 1)
    generalize recurse (path ++ slash ++ entries.getD i [])
      (F.dropLast ++ [decide (i = entries.length - 1)] ++ [true]) (depth + 1) = below at hr
    generalize (options.dir_only && !is_directory fs (path ++ slash ++ entries.getD i [])) = c1
    generalize (is_directory fs (path ++ slash ++ entries.getD i []) &&
      !is_symlink fs (path ++ slash ++ entries.getD i [])) = c2
    cases c1 <;> cases c2 <;> cases below <;> simp_all
  · intro fuel
    unfold main
    split
    · simp
    · have h := print_tree_defined fs options fuel options.start_path [] 0
      unfold print_tree_wrapper
      generalize print_tree fs options fuel options.start_path [] 0 = r at h
      cases r <;> simp_all

theorem get_tree_prefix_never_empty_witness :
    (∀ p F d, (fun (_ : Str) (_ : List Bool) (_ : Int) =>
      (Except.ok [] : Except Fault (List Str))) p F d ≠ .error .undefined_behaviour) ∧
    print_entry fs_walk options_default (fun _ _ _ => .ok []) (ascii "r") 0
        [ascii "lnk", ascii "sub"] 1 ([], []) ≠ .error .undefined_behaviour ∧
    print_tree_wrapper fs_walk options_default 3 (ascii "r") ≠ .error .undefined_behaviour :=
  ⟨fun _ _ _ => by simp,
    (get_tree_prefix_never_empty fs_walk options_default).2.2.1 (fun _ _ _ => .ok [])
      (ascii "r") 0 [ascii "lnk", ascii "sub"] 1 ([], []) (fun _ _ _ => by simp),
    (get_tree_prefix_never_empty fs_walk options_default).2.2.2.2.1 3 (ascii "r")⟩

/-! ## The order of the lines -/

theorem entries_lines_blocks (fs : FileSystem) (options : TreeOptions) (fuel : Nat)
    (path : Str) (depth : Int) (entries : List Str) (anc : List Bool) :
    ∀ (idxs : List Nat) (lines : List Str),
      entries_lines fs options (print_tree fs options fuel) path depth entries anc idxs =
        .ok lines →
      ∃ blocks : List (List Str), lines = blocks.flatten ∧
        List.Forall₂ (is_block fs options fuel path anc depth entries) idxs blocks := by
  intro idxs
  induction idxs with
  | nil =>
    intro lines h
    simp only [entries_lines, Except.ok.injEq] at h
    exact ⟨[], by simp [← h], List.Forall₂.nil⟩
  | cons i rest ih =>
    intro lines h
    simp only [entries_lines] at h
    cases hhere : entry_lines fs options (print_tree fs options fuel) path depth entries anc i
      with
    | error e =>
      rw [hhere] at h
      exact absurd h (by simp)
    | ok here =>
      rw [hhere] at h
      cases hrest : entries_lines fs options (print_tree fs options fuel) path depth entries
          anc rest with
      | error e =>
        rw [hrest] at h
        exact absurd h (by simp)
      | ok others =>
        rw [hrest] at h
        simp only [Except.ok.injEq] at h
        obtain ⟨blocks, hflat, hall⟩ := ih others hrest
        refine ⟨here :: blocks, by simp [← h, hflat], List.Forall₂.cons ?_ hall⟩
        unfold entry_lines at hhere
        unfold is_block
        by_cases hskip :
            (options.dir_only && !is_directory fs (path ++ slash ++ entries.getD i [])) = true
        · simp only [hskip, if_true, Except.ok.injEq] at hhere ⊢
          exact hhere.symm
        · simp only [hskip, Bool.false_eq_true, if_false] at hhere ⊢
          by_cases hrec : (is_directory fs (path ++ slash ++ entries.getD i []) &&
              !is_symlink fs (path ++ slash ++ entries.getD i [])) = true
          · simp only [hrec, if_true] at hhere ⊢
            cases hr : print_tree fs options fuel (path ++ slash ++ entries.getD i [])
                (anc ++ [decide (i = entries.length - 1)] ++ [true]) (depth + 1) with
            | error e =>
              rw [hr] at hhere
              exact absurd hhere (by simp)
            | ok below =>
              rw [hr] at hhere
              simp only [Except.ok.injEq] at hhere
              exact ⟨below, rfl, hhere.symm⟩
          · simp only [hrec, Bool.false_eq_true, if_false, Except.ok.injEq] at hhere ⊢
            exact hhere.symm

theorem print_tree_blocks (fs : FileSystem) (options : TreeOptions) (fuel : Nat) (path : Str)
    (F : List Bool) (depth : Int) (lines : List Str)
    (hrun : print_tree fs options (fuel + 1) path F depth = .ok lines)
    (hdepth : (options.max_depth != -1 && depth > options.max_depth) = false) :
    ∃ blocks : List (List Str), lines = blocks.flatten ∧
      List.Forall₂
        (is_block fs options fuel path F.dropLast depth
          (get_directory_entries fs path options.show_hidden))
        (List.range (get_directory_entries fs path options.show_hidden).length) blocks := by
  rw [print_tree_succ] at hrun
  have hg : ¬ (options.max_depth != -1 && decide (depth > options.max_depth)) = true := by
    rw [hdepth]; simp
  rw [if_neg hg] at hrun
  exact entries_lines_blocks fs options fuel path depth _ _ _ lines hrun

/-- C19: the output is in depth-first pre-order. The lines of a walk that ends are, in the
order of the listing returned by `get_directory_entries`, one block per entry put one after
the other; the block of an entry that is entered is the line of the entry followed at once by
all the lines of the walk of that directory, so these come before the line of the next
sibling; and a walk cut by the depth limit writes nothing. -/
theorem pre_order (fs : FileSystem) (options : TreeOptions) (fuel : Nat) (path : Str)
    (F : List Bool) (depth : Int) (lines : List Str)
    (hrun : print_tree fs options (fuel + 1) path F depth = .ok lines) :
    ((options.max_depth != -1 && depth > options.max_depth) = true → lines = []) ∧
    ((options.max_depth != -1 && depth > options.max_depth) = false →
      ∃ blocks : List (List Str), lines = blocks.flatten ∧
        List.Forall₂
          (is_block fs options fuel path F.dropLast depth
            (get_directory_entries fs path options.show_hidden))
          (List.range (get_directory_entries fs path options.show_hidden).length) blocks) := by
  refine ⟨?_, print_tree_blocks fs options fuel path F depth lines hrun⟩
  intro hg
  rw [print_tree_succ, if_pos hg] at hrun
  simp only [Except.ok.injEq] at hrun
  exact hrun.symm

theorem pre_order_witness :
    print_tree fs_walk options_default (2 + 1) (ascii "r") [] 0 =
      .ok [
        blue ++ mid_connector ++ reset ++ ascii "lnk -> sub\n",
        blue ++ mid_connector ++ reset ++ ascii "sub\n",
        blue ++ (bar_segment ++ mid_connector) ++ reset ++ ascii "deep\n",
        bar_segment ++ bar_segment ++ last_connector ++ ascii "y\n",
        bar_segment ++ last_connector ++ ascii "x\n",
        blue ++ mid_connector ++ reset ++ ascii "z\n",
        last_connector ++ ascii "file.txt\n"] ∧
    get_directory_entries fs_walk (ascii "r") options_default.show_hidden =
      [ascii "lnk", ascii "sub", ascii "z", ascii "file.txt"] ∧
    ∃ blocks : List (List Str),
      [ blue ++ mid_connector ++ reset ++ ascii "lnk -> sub\n",
        blue ++ mid_connector ++ reset ++ ascii "sub\n",
        blue ++ (bar_segment ++ mid_connector) ++ reset ++ ascii "deep\n",
        bar_segment ++ bar_segment ++ last_connector ++ ascii "y\n",
        bar_segment ++ last_connector ++ ascii "x\n",
        blue ++ mid_connector ++ reset ++ ascii "z\n",
        last_connector ++ ascii "file.txt\n"] = blocks.flatten ∧
      List.Forall₂
        (is_block fs_walk options_default 2 (ascii "r") ([] : List Bool).dropLast 0
          (get_directory_entries fs_walk (ascii "r") options_default.show_hidden))
        (List.range
          (get_directory_entries fs_walk (ascii "r") options_default.show_hidden).length)
        blocks :=
  ⟨by decide!, by decide!,
    (pre_order fs_walk options_default 2 (ascii "r") [] 0 _ (by decide!)).2 (by decide!)⟩

/-! ## The names shown -/

theorem chain_path_snoc (start : Str) (chain : List Str) (name : Str) :
    chain_path start (chain ++ [name]) = chain_path start chain ++ slash ++ name := by
  simp [chain_path, List.foldl_append]

theorem entries_lines_eq_named (fs : FileSystem) (options : TreeOptions) (recurse : Walker)
    (visit : ChainWalker) (start : Str) (chain : List Str) (depth : Int) (entries : List Str)
    (anc : List Bool)
    (hv : ∀ name F, recurse (chain_path start (chain ++ [name])) F (depth + 1) =
      visit (chain ++ [name]) F (depth + 1)) :
    ∀ idxs : List Nat,
      entries_lines fs options recurse (chain_path start chain) depth entries anc idxs =
        named_entries fs options visit start chain depth entries anc idxs := by
  intro idxs
  induction idxs with
  | nil => rfl
  | cons i rest ih =>
    simp only [entries_lines, named_entries, ih, entry_lines, named_entry, entry_line,
      named_line, display_name, shown_name, ← chain_path_snoc, hv]

/-- C14: the lines of every walk from the starting path `start` are those of the walk in
which the entry `name` of the directory reached through the directories `n1`, ..., `nk` is
shown as `start/n1/.../nk/name` in full-path mode and as the bare `name` otherwise. -/
theorem names_shown (fs : FileSystem) (options : TreeOptions) (start : Str) :
    chain_path start [] = start ∧
    (∀ chain name, chain_path start (chain ++ [name]) = chain_path start chain ++ slash ++ name) ∧
    (∀ chain name, options.full_path = true →
      shown_name options start chain name = chain_path start chain ++ slash ++ name) ∧
    (∀ chain name, options.full_path = false → shown_name options start chain name = name) ∧
    (∀ (fuel : Nat) (chain : List Str) (F : List Bool) (depth : Int),
      print_tree fs options fuel (chain_path start chain) F depth =
        walk_named fs options start fuel chain F depth) ∧
    (∀ fuel, print_tree_wrapper fs options fuel start =
      walk_named fs options start fuel [] [] 0) := by
  have key : ∀ (fuel : Nat) (chain : List Str) (F : List Bool) (depth : Int),
      print_tree fs options fuel (chain_path start chain) F depth =
        walk_named fs options start fuel chain F depth := by
    intro fuel
    induction fuel with
    | zero => intro chain F depth; rfl
    | succ fuel ih =>
      intro chain F depth
      rw [print_tree_succ, walk_named]
      dsimp only
      split
      · rfl
      · exact entries_lines_eq_named fs options _ _ start chain depth _ _
          (fun name F1 => ih (chain ++ [name]) F1 (depth + 1)) _
  refine ⟨rfl, chain_path_snoc start, ?_, ?_, key, fun fuel => key fuel [] [] 0⟩
  · intro chain name hf
    simp [shown_name, hf, chain_path_snoc]
  · intro chain name hf
    simp [shown_name, hf]

theorem names_shown_witness :
    ({ options_default with full_path := true } : TreeOptions).full_path = true ∧
    shown_name { options_default with full_path := true } (ascii "r")
        [ascii "sub", ascii "deep"] (ascii "y") = ascii "r/sub/deep/y" ∧
    options_default.full_path = false ∧
    shown_name options_default (ascii "r") [ascii "sub", ascii "deep"] (ascii "y") =
      ascii "y" ∧
    print_tree_wrapper fs_walk { options_default with full_path := true } 3 (ascii "r") =
      walk_named fs_walk { options_default with full_path := true } (ascii "r") 3 [] [] 0 ∧
    print_tree_wrapper fs_walk { options_default with full_path := true } 3 (ascii "r") =
      .ok [
        blue ++ mid_connector ++ reset ++ ascii "r/lnk -> sub\n",
        blue ++ mid_connector ++ reset ++ ascii "r/sub\n",
        blue ++ (bar_segment ++ mid_connector) ++ reset ++ ascii "r/sub/deep\n",
        bar_segment ++ bar_segment ++ last_connector ++ ascii "r/sub/deep/y\n",
        bar_segment ++ last_connector ++ ascii "r/sub/x\n",
        blue ++ mid_connector ++ reset ++ ascii "r/z\n",
        last_connector ++ ascii "r/file.txt\n"] := by
  have h1 := names_shown fs_walk { options_default with full_path := true } (ascii "r")
  have h2 := names_shown fs_walk options_default (ascii "r")
  refine ⟨rfl, ?_, rfl, h2.2.2.2.1 _ _ rfl, h1.2.2.2.2.2 3, by decide!⟩
  rw [h1.2.2.1 _ _ rfl]
  decide

/-! ## Depths shown -/

theorem print_tree_eq_walk_all (fs : FileSystem) (options : TreeOptions)
    (hN : options.max_depth = -1) :
    ∀ (fuel : Nat) (path : Str) (F : List Bool) (depth : Int),
      print_tree fs options fuel path F depth = walk_all fs options fuel path F depth := by
  intro fuel
  induction fuel with
  | zero => intro path F depth; rfl
  | succ fuel ih =>
    intro path F depth
    rw [print_tree_succ, hN, walk_all, list_directory_eq]
    have hg : ¬ (((-1 : Int) != -1) && decide (depth > (-1 : Int))) = true := by simp
    rw [if_neg hg]
    apply entries_lines_congr
    intro p F1 _
    exact ih p F1 (depth + 1)

theorem show_levels_of_walk_all (fs : FileSystem) (options : TreeOptions) :
    ∀ (fuel : Nat) (path : Str) (F : List Bool) (depth : Int) (lines : List Str),
      walk_all fs options fuel path F depth = .ok lines →
      ∀ extra, show_levels fs options (fuel + extra) path F depth = .ok lines := by
  intro fuel
  induction fuel with
  | zero =>
    intro path F depth lines h
    exact absurd h (by simp [walk_all])
  | succ fuel ih =>
    intro path F depth lines h extra
    have hk : fuel + 1 + extra = (fuel + extra) + 1 := by omega
    rw [hk, show_levels, list_directory_eq]
    rw [walk_all, list_directory_eq] at h
    exact entries_lines_mono fs options _ _ path depth _ _
      (fun p F1 ls hp => ih p F1 (depth + 1) ls hp extra) _ lines h

/-! ## The size of `is_last` -/

theorem print_tree_checked_succ (fs : FileSystem) (options : TreeOptions)
    (inv : List Bool → Int → Bool) (fuel : Nat) (path : Str) (F : List Bool) (depth : Int) :
    print_tree_checked fs options inv (fuel + 1) path F depth =
      if options.max_depth != -1 && depth > options.max_depth then .ok []
      else
        entries_lines fs options (checked inv (print_tree_checked fs options inv fuel)) path
          depth (get_directory_entries fs path options.show_hidden) F.dropLast
          (List.range (get_directory_entries fs path options.show_hidden).length) := by
  rw [print_tree_checked, print_tree_body_eq]

theorem entries_lines_at_size (fs : FileSystem) (options : TreeOptions) (r1 r2 : Walker)
    (path : Str) (depth : Int) (entries : List Str) (anc : List Bool)
    (h : ∀ p F, F.length = anc.length + 2 → r1 p F (depth + 1) = r2 p F (depth + 1)) :
    ∀ idxs : List Nat,
      entries_lines fs options r1 path depth entries anc idxs =
        entries_lines fs options r2 path depth entries anc idxs := by
  intro idxs
  induction idxs with
  | nil => rfl
  | cons i rest ih =>
    simp only [entries_lines, ih, entry_lines]
    rw [h _ (anc ++ [decide (i = entries.length - 1)] ++ [true]) (by simp)]

theorem print_tree_eq_checked (fs : FileSystem) (options : TreeOptions) :
    ∀ (fuel : Nat) (path : Str) (F : List Bool) (d : Nat), F.dropLast.length = d →
      print_tree fs options fuel path F (d : Int) =
        print_tree_checked fs options (fun F1 d1 => decide ((F1.length : Int) = d1 + 1))
          fuel path F (d : Int) := by
  intro fuel
  induction fuel with
  | zero => intro path F d _; rfl
  | succ fuel ih =>
    intro path F d hd
    rw [print_tree_succ, print_tree_checked_succ]
    split
    · rfl
    · apply entries_lines_at_size
      intro p F1 hF1
      have hsize : ((F1.length : Int) = ((d : Int) + 1) + 1) := by
        rw [hF1, hd]; push_cast; ring
      simp only [checked, hsize, decide_True, if_true]
      have hd1 : F1.dropLast.length = d + 1 := by
        rw [List.length_dropLast, hF1, hd]; omega
      have := ih p F1 (d + 1) hd1
      simpa using this

/-- C11 (amended): throughout every walk started by `print_tree_wrapper`, the vector `is_last`
that the invocation at depth `d` hands to a recursive call has `d + 2` elements, so the
invocation at depth `d + 1` receives `(d + 1) + 1` elements, and after the call returns the
vector of the invocation at depth `d` has `d + 1` elements again: the flags of the `d`
ancestors and the flag of the current entry. For the loop body started on the vector `F`
with `d = F.dropLast.length`: only what the recursive call does on vectors of `d + 2`
elements matters, and afterwards the vector is `F` untouched (entry skipped) or
`F.dropLast` with the flag of the entry. -/
theorem is_last_size (fs : FileSystem) (options : TreeOptions) :
    (∀ (recurse : Walker) (path : Str) (depth : Int) (entries : List Str) (i : Nat)
        (F : List Bool) (out : List Str),
      print_entry fs options recurse path depth entries i (F, out) =
        print_entry fs options
          (checked (fun F1 _ => decide (F1.length = F.dropLast.length + 2)) recurse)
          path depth entries i (F, out)) ∧
    (∀ (recurse : Walker) (path : Str) (depth : Int) (entries : List Str) (i : Nat)
        (F : List Bool) (out : List Str) (st : WalkState),
      print_entry fs options recurse path depth entries i (F, out) = .ok st →
      st.1 = F ∨
        (st.1 = F.dropLast ++ [decide (i = entries.length - 1)] ∧
          st.1.length = F.dropLast.length + 1)) ∧
    (∀ (fuel : Nat) (path : Str),
      print_tree_wrapper fs options fuel path =
        print_tree_checked fs options (fun F1 d1 => decide ((F1.length : Int) = d1 + 1))
          fuel path [] 0) ∧
    (∀ (fuel : Nat) (path : Str) (F : List Bool) (d : Nat), F.length = d + 1 →
      print_tree fs options fuel path F (d : Int) =
        print_tree_checked fs options (fun F1 d1 => decide ((F1.length : Int) = d1 + 1))
          fuel path F (d : Int)) := by
  refine ⟨?_, ?_, ?_, ?_⟩
  · intro recurse path depth entries i F out
    rw [print_entry_eq, print_entry_eq]
    simp [checked]
  · intro recurse path depth entries i F out st h
    rw [print_entry_eq] at h
    generalize recurse (path ++ slash ++ entries.getD i [])
      (F.dropLast ++ [decide (i = entries.length - 1)] ++ [true]) (depth + 1) = below at h
    generalize (options.dir_only && !is_directory fs (path ++ slash ++ entries.getD i [])) =
      c1 at h
    generalize (is_directory fs (path ++ slash ++ entries.getD i []) &&
      !is_symlink fs (path ++ slash ++ entries.getD i [])) = c2 at h
    cases c1 <;> cases c2 <;> cases below <;> simp at h <;> subst h <;> simp
  · intro fuel path
    exact print_tree_eq_checked fs options fuel path [] 0 rfl
  · intro fuel path F d hF
    exact print_tree_eq_checked fs options fuel path F d (by rw [List.length_dropLast, hF]; rfl)

theorem is_last_size_witness :
    print_entry fs_walk options_default probe (ascii "r") 0
        [ascii "lnk", ascii "sub", ascii "z", ascii "file.txt"] 1 ([true], []) =
      .ok ([false], [blue ++ mid_connector ++ reset ++ ascii "sub\n", [2, 1]]) ∧
    (([false], [blue ++ mid_connector ++ reset ++ ascii "sub\n", [2, 1]]) : WalkState).1 =
        ([true] : List Bool).dropLast ++ [decide (1 = [ascii "lnk", ascii "sub", ascii "z",
          ascii "file.txt"].length - 1)] ∧
    print_tree_wrapper fs_walk options_default 3 (ascii "r") =
      print_tree_checked fs_walk options_default
        (fun F1 d1 => decide ((F1.length : Int) = d1 + 1)) 3 (ascii "r") [] 0 := by
  have h := is_last_size fs_walk options_default
  have hrun : print_entry fs_walk options_default probe (ascii "r") 0
        [ascii "lnk", ascii "sub", ascii "z", ascii "file.txt"] 1 ([true], []) =
      .ok ([false], [blue ++ mid_connector ++ reset ++ ascii "sub\n", [2, 1]]) := by decide!
  refine ⟨hrun, ?_, h.2.2.1 3 (ascii "r")⟩
  rcases h.2.1 probe (ascii "r") 0 [ascii "lnk", ascii "sub", ascii "z", ascii "file.txt"] 1
    [true] [] _ hrun with h1 | h1
  · exact absurd h1 (by decide)
  · exact h1.1

/-- C11 fails as stated: in the walk of `r`, the call for `sub` at depth 1 receives a vector
of 2 elements, and after it returns the invocation at depth 0 holds 1 element; checking at
every recursive call that the vector has as many elements as the depth stops the walk, which
without the check ends well. -/
theorem is_last_size_is_not_depth :
    print_entry fs_walk options_default probe (ascii "r") 0
        [ascii "lnk", ascii "sub", ascii "z", ascii "file.txt"] 1 ([false], []) =
      .ok ([false], [blue ++ mid_connector ++ reset ++ ascii "sub\n", [2, 1]]) ∧
    print_tree_checked fs_walk options_default (fun F1 d1 => decide ((F1.length : Int) = d1))
        3 (ascii "r") [] 0 = .error .undefined_behaviour ∧
    print_tree fs_walk options_default 3 (ascii "r") [] 0 =
      .ok [
        blue ++ mid_connector ++ reset ++ ascii "lnk -> sub\n",
        blue ++ mid_connector ++ reset ++ ascii "sub\n",
        blue ++ (bar_segment ++ mid_connector) ++ reset ++ ascii "deep\n",
        bar_segment ++ bar_segment ++ last_connector ++ ascii "y\n",
        bar_segment ++ last_connector ++ ascii "x\n",
        blue ++ mid_connector ++ reset ++ ascii "z\n",
        last_connector ++ ascii "file.txt\n"] := by
  decide!

/-! ## The command line -/

theorem option_loop_valid (read_int : Str → Int) (diagnostic : Str) :
    ∀ (codes : List OptionCode) (options : TreeOptions),
      (∀ c ∈ codes, c ≠ OptionCode.help ∧ c ≠ OptionCode.invalid) →
      ∃ parsed, option_loop read_int diagnostic codes options = .ok parsed ∧
        parsed.start_path = options.start_path := by
  intro codes
  induction codes with
  | nil => intro options _; exact ⟨options, rfl, rfl⟩
  | cons c rest ih =>
    intro options hvalid
    have hrest : ∀ c ∈ rest, c ≠ OptionCode.help ∧ c ≠ OptionCode.invalid :=
      fun c hc => hvalid c (List.mem_cons_of_mem _ hc)
    have hc := hvalid c (List.mem_cons_self _ _)
    cases c with
    | all => exact ih _ hrest
    | dir_only => exact ih _ hrest
    | full_path => exact ih _ hrest
    | level optarg => exact ih _ hrest
    | help => exact absurd rfl hc.1
    | invalid => exact absurd rfl hc.2

/-- C15: for every command line whose options are all recognised and do not include help,
when the starting path (the directory given, else `.`) does not exist, `main` returns status 1
with the message `Error: Path '...' does not exist.` on the error stream and nothing on
standard output, whatever the fuel. -/
theorem missing_start_path (fs : FileSystem) (read_int : Str → Int) (diagnostic : Str)
    (codes : List OptionCode) (positional : Option Str) (fuel : Nat)
    (hvalid : ∀ c ∈ codes, c ≠ OptionCode.help ∧ c ≠ OptionCode.invalid)
    (hmissing : fs.access (positional.getD (ascii ".")) = false) :
    main_from_command_line fs read_int diagnostic codes positional fuel =
      .ok { status := 1, stdout := [],
            stderr := ascii "Error: Path '" ++ positional.getD (ascii ".") ++
              ascii "' does not exist.\n" } := by
  obtain ⟨parsed, hparsed, hstart⟩ :=
    option_loop_valid read_int diagnostic codes initial_options hvalid
  unfold main_from_command_line
  rw [hparsed]
  cases positional with
  | none =>
    have hs : parsed.start_path = ascii "." := hstart
    simp only [Option.getD_none] at hmissing ⊢
    simp [main, hs, hmissing]
  | some path =>
    simp only [Option.getD_some] at hmissing ⊢
    simp [main, hmissing]

theorem missing_start_path_witness :
    (∀ c ∈ [OptionCode.all, OptionCode.level (ascii "2")],
      c ≠ OptionCode.help ∧ c ≠ OptionCode.invalid) ∧
    fs_walk.access ((some (ascii "nowhere")).getD (ascii ".")) = false ∧
    main_from_command_line fs_walk (fun _ => 2) [] [OptionCode.all, OptionCode.level (ascii "2")]
        (some (ascii "nowhere")) 5 =
      .ok { status := 1, stdout := [],
            stderr := ascii "Error: Path 'nowhere' does not exist.\n" } :=
  ⟨by decide, by decide,
    missing_start_path fs_walk (fun _ => 2) [] [OptionCode.all, OptionCode.level (ascii "2")]
      (some (ascii "nowhere")) 5 (by decide) (by decide)⟩

/-! ## The entries shown -/

theorem chain_path_cons (start name : Str) (rest : List Str) :
    chain_path start (name :: rest) = chain_path (start ++ slash ++ name) rest := rfl

theorem chain_path_append (start : Str) (chain rest : List Str) :
    chain_path start (chain ++ rest) = chain_path (chain_path start chain) rest := by
  simp [chain_path, List.foldl_append]

theorem mem_get_directory_entries_iff (fs : FileSystem) (path : Str) (show_hidden : Bool)
    (entry : Str) :
    entry ∈ get_directory_entries fs path show_hidden ↔
      ∃ names, fs.readdir path = some names ∧ entry ∈ names ∧
        qualifies show_hidden entry = true := by
  constructor
  · exact mem_get_directory_entries fs path show_hidden entry
  · rintro ⟨names, hr, hmem, hq⟩
    rw [get_directory_entries_of_readdir fs path show_hidden names hr]
    apply (sort_entries_perm fs path _).mem_iff.2
    rw [List.mem_filter]
    exact ⟨hmem, hq⟩

theorem qualifying_entry_iff (fs : FileSystem) (options : TreeOptions) (dir name : Str) :
    qualifying_entry fs options dir name = true ↔
      name ∈ get_directory_entries fs dir options.show_hidden ∧
        (options.dir_only && !is_directory fs (dir ++ slash ++ name)) = false := by
  rw [mem_get_directory_entries_iff]
  unfold qualifying_entry
  cases hr : fs.readdir dir with
  | none => simp
  | some names =>
    cases options.dir_only <;> cases is_directory fs (dir ++ slash ++ name) <;> simp

theorem mem_shown_from (fs : FileSystem) (options : TreeOptions) (start : Str)
    (below : List Str → List (List Str)) (chain : List Str) (name : Str) (c : List Str) :
    c ∈ shown_from fs options start below chain name ↔
      (options.dir_only && !is_directory fs (chain_path start chain ++ slash ++ name)) = false ∧
      (c = chain ++ [name] ∨
        (is_directory fs (chain_path start chain ++ slash ++ name) = true ∧
          is_symlink fs (chain_path start chain ++ slash ++ name) = false ∧
          c ∈ below (chain ++ [name]))) := by
  unfold shown_from
  rw [chain_path_snoc]
  generalize is_directory fs (chain_path start chain ++ slash ++ name) = d
  generalize is_symlink fs (chain_path start chain ++ slash ++ name) = l
  cases options.dir_only <;> cases d <;> cases l <;> simp

theorem mem_shown_entries (fs : FileSystem) (options : TreeOptions) (start : Str) :
    ∀ (levels : Nat) (chain c : List Str),
      c ∈ shown_entries fs options start levels chain ↔
        ∃ rest, c = chain ++ rest ∧ 1 ≤ rest.length ∧ rest.length ≤ levels ∧
          qualifies_along fs options (chain_path start chain) rest = true ∧
          ancestors_entered fs (chain_path start chain) rest = true := by
  intro levels
  induction levels with
  | zero =>
    intro chain c
    simp only [shown_entries, List.not_mem_nil, false_iff]
    rintro ⟨rest, _, h1, h2, _⟩
    omega
  | succ levels ih =>
    intro chain c
    simp only [shown_entries, List.mem_flatMap, mem_shown_from]
    constructor
    · rintro ⟨name, hmem, hshow, hc⟩
      have hq : qualifying_entry fs options (chain_path start chain) name = true :=
        (qualifying_entry_iff fs options _ name).2 ⟨hmem, hshow⟩
      rcases hc with hc | ⟨hd, hl, hc⟩
      · refine ⟨[name], hc, by simp, by simp, ?_, ?_⟩
        · simp [qualifies_along, hq]
        · simp [ancestors_entered]
      · obtain ⟨rest, hrest, h1, h2, h3, h4⟩ := (ih (chain ++ [name]) c).1 hc
        rw [chain_path_snoc] at h3 h4
        refine ⟨name :: rest, by simp [hrest], by simp, by simp; omega, ?_, ?_⟩
        · simp only [qualifies_along, hq, h3, Bool.and_self]
        · simp only [ancestors_entered, hd, hl, h4, Bool.not_false, Bool.and_self,
            Bool.or_true]
    · rintro ⟨rest, hrest, h1, h2, h3, h4⟩
      cases rest with
      | nil => simp at h1
      | cons name rest =>
        simp only [qualifies_along, Bool.and_eq_true] at h3
        obtain ⟨hmem, hshow⟩ := (qualifying_entry_iff fs options _ name).1 h3.1
        refine ⟨name, hmem, hshow, ?_⟩
        cases rest with
        | nil => exact Or.inl hrest
        | cons name2 rest =>
          right
          simp only [ancestors_entered, List.isEmpty_cons, Bool.false_or, Bool.and_eq_true,
            Bool.not_eq_true'] at h4
          refine ⟨h4.1.1, h4.1.2, ?_⟩
          apply (ih (chain ++ [name]) c).2
          refine ⟨name2 :: rest, by simp [hrest], by simp, ?_, ?_, ?_⟩
          · simp only [List.length_cons] at h2 ⊢
            omega
          · rw [chain_path_snoc]; exact h3.2
          · rw [chain_path_snoc]; exact h4.2

theorem get_directory_entries_nodup (fs : FileSystem)
    (hdistinct : ∀ p names, fs.readdir p = some names → names.Nodup) (path : Str)
    (show_hidden : Bool) : (get_directory_entries fs path show_hidden).Nodup := by
  cases hr : fs.readdir path with
  | none => simp [get_directory_entries, hr]
  | some names =>
    rw [get_directory_entries_of_readdir fs path show_hidden names hr]
    exact (sort_entries_perm fs path _).nodup_iff.2 ((hdistinct path names hr).filter _)

theorem shown_entries_nodup (fs : FileSystem) (options : TreeOptions) (start : Str)
    (hdistinct : ∀ p names, fs.readdir p = some names → names.Nodup) :
    ∀ (levels : Nat) (chain : List Str), (shown_entries fs options start levels chain).Nodup := by
  intro levels
  induction levels with
  | zero => intro chain; simp [shown_entries]
  | succ levels ih =>
    intro chain
    simp only [shown_entries]
    rw [List.nodup_flatMap]
    constructor
    · intro name _
      unfold shown_from
      split
      · exact List.nodup_nil
      · split
        · rw [List.nodup_cons]
          refine ⟨?_, ih _⟩
          intro hmem
          obtain ⟨rest, hrest, h1, _⟩ := (mem_shown_entries fs options start levels _ _).1 hmem
          have := congrArg List.length hrest
          simp only [List.length_append] at this
          omega
        · exact List.nodup_singleton _
    · refine (get_directory_entries_nodup fs hdistinct _ _).imp ?_
      intro a b hab
      intro c hca hcb
      have key : ∀ x, c ∈ shown_from fs options start (shown_entries fs options start levels)
          chain x → ∃ rest, c = chain ++ x :: rest := by
        intro x hx
        rcases ((mem_shown_from fs options start _ chain x c).1 hx).2 with h | ⟨_, _, h⟩
        · exact ⟨[], h⟩
        · obtain ⟨rest, hrest, _⟩ := (mem_shown_entries fs options start levels _ _).1 h
          exact ⟨rest, by simp [hrest]⟩
      obtain ⟨r1, h1⟩ := key a hca
      obtain ⟨r2, h2⟩ := key b hcb
      rw [h1] at h2
      have := List.append_cancel_left h2
      simp only [List.cons.injEq] at this
      exact hab this.1

theorem map_getD_range (entries : List Str) :
    (List.range entries.length).map (fun i => entries.getD i []) = entries := by
  apply List.ext_getElem
  · simp
  · intro i h1 h2
    simp only [List.getElem_map, List.getElem_range]
    exact List.getD_eq_getElem _ _ h2

theorem entries_lines_shown (fs : FileSystem) (options : TreeOptions) (recurse : Walker)
    (start : Str) (chain : List Str) (below : List Str → List (List Str)) (depth : Int)
    (entries : List Str) (anc : List Bool) (hanc : anc.length = chain.length)
    (hrec : ∀ name F lines, F.dropLast.length = chain.length + 1 →
      recurse (chain_path start (chain ++ [name])) F (depth + 1) = .ok lines →
      List.Forall₂ (is_line_of fs options start) (below (chain ++ [name])) lines) :
    ∀ (idxs : List Nat) (lines : List Str),
      entries_lines fs options recurse (chain_path start chain) depth entries anc idxs =
        .ok lines →
      List.Forall₂ (is_line_of fs options start)
        ((idxs.map (fun i => entries.getD i [])).flatMap
          (shown_from fs options start below chain)) lines := by
  intro idxs
  induction idxs with
  | nil =>
    intro lines h
    simp only [entries_lines, Except.ok.injEq] at h
    subst h
    exact List.Forall₂.nil
  | cons i rest ih =>
    intro lines h
    simp only [entries_lines] at h
    cases hhere : entry_lines fs options recurse (chain_path start chain) depth entries anc i
      with
    | error e =>
      rw [hhere] at h
      exact absurd h (by simp)
    | ok here =>
      rw [hhere] at h
      cases hrest : entries_lines fs options recurse (chain_path start chain) depth entries
          anc rest with
      | error e =>
        rw [hrest] at h
        exact absurd h (by simp)
      | ok others =>
        rw [hrest] at h
        simp only [Except.ok.injEq] at h
        subst h
        simp only [List.map_cons, List.flatMap_cons]
        refine List.rel_append ?_ (ih others hrest)
        have hline : is_line_of fs options start (chain ++ [entries.getD i []])
            (entry_line fs options (chain_path start chain) anc (entries.getD i [])
              (decide (i = entries.length - 1))) :=
          ⟨anc, _, by simp [hanc], by rw [List.dropLast_concat, List.getLastD_concat]⟩
        unfold entry_lines at hhere
        unfold shown_from
        rw [chain_path_snoc]
        by_cases hskip : (options.dir_only &&
            !is_directory fs (chain_path start chain ++ slash ++ entries.getD i [])) = true
        · simp only [hskip, if_true, Except.ok.injEq] at hhere ⊢
          subst hhere
          exact List.Forall₂.nil
        · simp only [hskip, Bool.false_eq_true, if_false] at hhere ⊢
          by_cases hreal : (is_directory fs
              (chain_path start chain ++ slash ++ entries.getD i []) &&
              !is_symlink fs (chain_path start chain ++ slash ++ entries.getD i [])) = true
          · simp only [hreal, if_true] at hhere ⊢
            cases hr : recurse (chain_path start chain ++ slash ++ entries.getD i [])
                (anc ++ [decide (i = entries.length - 1)] ++ [true]) (depth + 1) with
            | error e =>
              rw [hr] at hhere
              exact absurd hhere (by simp)
            | ok sub =>
              rw [hr] at hhere
              simp only [Except.ok.injEq] at hhere
              subst hhere
              refine List.Forall₂.cons hline ?_
              apply hrec (entries.getD i []) _ sub _
              · rw [chain_path_snoc]; exact hr
              · simp [hanc]
          · simp only [hreal, Bool.false_eq_true, if_false, Except.ok.injEq] at hhere ⊢
            subst hhere
            exact List.Forall₂.cons hline List.Forall₂.nil

theorem show_levels_shown (fs : FileSystem) (options : TreeOptions) (start : Str) :
    ∀ (k : Nat) (chain : List Str) (F : List Bool) (depth : Int) (lines : List Str),
      F.dropLast.length = chain.length →
      show_levels fs options k (chain_path start chain) F depth = .ok lines →
      List.Forall₂ (is_line_of fs options start) (shown_entries fs options start k chain)
        lines := by
  intro k
  induction k with
  | zero =>
    intro chain F depth lines _ h
    simp only [show_levels, Except.ok.injEq] at h
    subst h
    exact List.Forall₂.nil
  | succ k ih =>
    intro chain F depth lines hF h
    rw [show_levels, list_directory_eq] at h
    have := entries_lines_shown fs options (show_levels fs options k) start chain
      (shown_entries fs options start k) depth
      (get_directory_entries fs (chain_path start chain) options.show_hidden) F.dropLast hF
      (fun name F1 ls hF1 hrun => ih (chain ++ [name]) F1 (depth + 1) ls (by simp [hF1]) hrun)
      _ lines h
    rw [map_getD_range] at this
    exact this

theorem length_le_of_nesting_bounded (fs : FileSystem) (options : TreeOptions) :
    ∀ (h : Nat) (dir : Str) (rest : List Str),
      nesting_bounded fs options.show_hidden h dir = true →
      qualifies_along fs options dir rest = true →
      ancestors_entered fs dir rest = true →
      rest.length ≤ h + 1 := by
  intro h
  induction h with
  | zero =>
    intro dir rest hb hq ha
    cases rest with
    | nil => simp
    | cons name rest =>
      cases rest with
      | nil => simp
      | cons name2 rest =>
        simp only [qualifies_along, Bool.and_eq_true] at hq
        have hmem := ((qualifying_entry_iff fs options dir name).1 hq.1).1
        simp only [ancestors_entered, List.isEmpty_cons, Bool.false_or, Bool.and_eq_true,
          Bool.not_eq_true'] at ha
        simp only [nesting_bounded, List.all_eq_true] at hb
        have := hb _ hmem
        rw [ha.1.1, ha.1.2] at this
        exact absurd this (by decide)
  | succ h ih =>
    intro dir rest hb hq ha
    cases rest with
    | nil => simp
    | cons name rest =>
      cases rest with
      | nil => simp
      | cons name2 rest =>
        simp only [qualifies_along, Bool.and_eq_true] at hq
        have hmem := ((qualifying_entry_iff fs options dir name).1 hq.1).1
        simp only [ancestors_entered, List.isEmpty_cons, Bool.false_or, Bool.and_eq_true,
          Bool.not_eq_true'] at ha
        simp only [nesting_bounded, List.all_eq_true] at hb
        have hsub := hb _ hmem
        simp only [ha.1.1, ha.1.2, Bool.not_false, Bool.and_self, Bool.not_true,
          Bool.false_or] at hsub
        have := ih (dir ++ slash ++ name) (name2 :: rest) hsub
          (by simp only [qualifies_along, Bool.and_eq_true]; exact hq.2) ha.2
        simp only [List.length_cons] at this ⊢
        omega

theorem mem_shown_entries_root (fs : FileSystem) (options : TreeOptions) (start : Str)
    (levels : Nat) (c : List Str) :
    c ∈ shown_entries fs options start levels [] ↔
      1 ≤ c.length ∧ c.length ≤ levels ∧ qualifies_along fs options start c = true ∧
        ancestors_entered fs start c = true := by
  rw [mem_shown_entries]
  constructor
  · rintro ⟨rest, hrest, h⟩
    rw [List.nil_append] at hrest
    subst hrest
    exact h
  · intro h
    exact ⟨c, rfl, h⟩

theorem print_tree_limited_shown (fs : FileSystem) (options : TreeOptions) (N : Nat)
    (hN : options.max_depth = (N : Int)) (extra : Nat) (start : Str) :
    ∃ lines,
      print_tree_wrapper fs options (N + 2 + extra) start = .ok lines ∧
      List.Forall₂ (is_line_of fs options start) (shown_entries fs options start (N + 1) [])
        lines := by
  have h := print_tree_levels fs options N hN (N + 1) 0 (N + 2 + extra) start []
    (by omega) (by omega)
  obtain ⟨lines, hlines⟩ := show_levels_ok fs options (N + 1) start [] ((0 : Nat) : Int)
  refine ⟨lines, ?_, show_levels_shown fs options start (N + 1) [] [] _ lines rfl hlines⟩
  rw [← hlines, ← h]
  rfl

theorem print_tree_unlimited_shown (fs : FileSystem) (options : TreeOptions)
    (hN : options.max_depth = -1) (h : Nat) (start : Str)
    (hb : nesting_bounded fs options.show_hidden h start = true) (extra : Nat) :
    ∃ lines,
      print_tree_wrapper fs options (h + 1 + extra) start = .ok lines ∧
      List.Forall₂ (is_line_of fs options start) (shown_entries fs options start (h + 1) [])
        lines := by
  obtain ⟨lines, hlines⟩ := print_tree_of_nesting_bounded fs options h start [] 0 hb
  refine ⟨lines, print_tree_fuel_add fs options (h + 1) start [] 0 lines hlines extra, ?_⟩
  rw [print_tree_eq_walk_all fs options hN] at hlines
  have hshow := show_levels_of_walk_all fs options (h + 1) start [] 0 lines hlines 0
  exact show_levels_shown fs options start (h + 1) [] [] 0 lines rfl hshow

/-- C5 (amended): with a configured max depth `N ≥ 0` exactly `N + 1` levels of descendants
are shown. Whatever fuel beyond `N + 1` is given, the walk from the starting path ends, and
its lines are, in order, one line for each entry of `shown_entries` at `N + 1` levels. An
entry is among these iff the chain of names that leads to it from the starting path has at
least 1 and at most `N + 1` names (it is on one of the levels 1 to `N + 1`), every name of
the chain is a qualifying entry of the directory that holds it, and every ancestor is a
directory that is not a symbolic link. With `max_depth = 0` these are the root's immediate
children and no grandchild, with `max_depth = 1` the children and the grandchildren and no
great-grandchild. When the names of every directory are distinct, no entry comes twice. -/
theorem print_tree_shows_levels (fs : FileSystem) (options : TreeOptions) (N : Nat)
    (hN : options.max_depth = (N : Int)) (extra : Nat) (start : Str) :
    ∃ lines,
      print_tree_wrapper fs options (N + 2 + extra) start = .ok lines ∧
      List.Forall₂ (is_line_of fs options start) (shown_entries fs options start (N + 1) [])
        lines ∧
      (∀ c, c ∈ shown_entries fs options start (N + 1) [] ↔
        (1 ≤ c.length ∧ c.length ≤ N + 1 ∧ qualifies_along fs options start c = true ∧
          ancestors_entered fs start c = true)) ∧
      ((∀ p names, fs.readdir p = some names → names.Nodup) →
        (shown_entries fs options start (N + 1) []).Nodup) := by
  obtain ⟨lines, hrun, hlines⟩ := print_tree_limited_shown fs options N hN extra start
  exact ⟨lines, hrun, hlines, mem_shown_entries_root fs options start (N + 1),
    fun hdistinct => shown_entries_nodup fs options start hdistinct _ _⟩

theorem print_tree_shows_levels_witness :
    ({ options_default with max_depth := 0 } : TreeOptions).max_depth = ((0 : Nat) : Int) ∧
    print_tree_wrapper fs_walk { options_default with max_depth := 0 } (0 + 2 + 0) (ascii "r") =
      .ok [
        blue ++ mid_connector ++ reset ++ ascii "lnk -> sub\n",
        blue ++ mid_connector ++ reset ++ ascii "sub\n",
        blue ++ mid_connector ++ reset ++ ascii "z\n",
        last_connector ++ ascii "file.txt\n"] ∧
    shown_entries fs_walk { options_default with max_depth := 0 } (ascii "r") (0 + 1) [] =
      [[ascii "lnk"], [ascii "sub"], [ascii "z"], [ascii "file.txt"]] ∧
    (∃ lines,
      print_tree_wrapper fs_walk { options_default with max_depth := 0 } (0 + 2 + 0)
        (ascii "r") = .ok lines ∧
      List.Forall₂ (is_line_of fs_walk { options_default with max_depth := 0 } (ascii "r"))
        (shown_entries fs_walk { options_default with max_depth := 0 } (ascii "r") (0 + 1) [])
        lines ∧
      (∀ c, c ∈ shown_entries fs_walk { options_default with max_depth := 0 } (ascii "r")
          (0 + 1) [] ↔
        (1 ≤ c.length ∧ c.length ≤ 0 + 1 ∧
          qualifies_along fs_walk { options_default with max_depth := 0 } (ascii "r") c = true ∧
          ancestors_entered fs_walk (ascii "r") c = true)) ∧
      ((∀ p names, fs_walk.readdir p = some names → names.Nodup) →
        (shown_entries fs_walk { options_default with max_depth := 0 } (ascii "r")
          (0 + 1) []).Nodup)) ∧
    ({ options_default with max_depth := 1 } : TreeOptions).max_depth = ((1 : Nat) : Int) ∧
    print_tree_wrapper fs_walk { options_default with max_depth := 1 } (1 + 2 + 0) (ascii "r") =
      .ok [
        blue ++ mid_connector ++ reset ++ ascii "lnk -> sub\n",
        blue ++ mid_connector ++ reset ++ ascii "sub\n",
        blue ++ (bar_segment ++ mid_connector) ++ reset ++ ascii "deep\n",
        bar_segment ++ last_connector ++ ascii "x\n",
        blue ++ mid_connector ++ reset ++ ascii "z\n",
        last_connector ++ ascii "file.txt\n"] ∧
    shown_entries fs_walk { options_default with max_depth := 1 } (ascii "r") (1 + 1) [] =
      [[ascii "lnk"], [ascii "sub"], [ascii "sub", ascii "deep"], [ascii "sub", ascii "x"],
        [ascii "z"], [ascii "file.txt"]] ∧
    ∃ lines,
      print_tree_wrapper fs_walk { options_default with max_depth := 1 } (1 + 2 + 0)
        (ascii "r") = .ok lines ∧
      List.Forall₂ (is_line_of fs_walk { options_default with max_depth := 1 } (ascii "r"))
        (shown_entries fs_walk { options_default with max_depth := 1 } (ascii "r") (1 + 1) [])
        lines ∧
      (∀ c, c ∈ shown_entries fs_walk { options_default with max_depth := 1 } (ascii "r")
          (1 + 1) [] ↔
        (1 ≤ c.length ∧ c.length ≤ 1 + 1 ∧
          qualifies_along fs_walk { options_default with max_depth := 1 } (ascii "r") c = true ∧
          ancestors_entered fs_walk (ascii "r") c = true)) ∧
      ((∀ p names, fs_walk.readdir p = some names → names.Nodup) →
        (shown_entries fs_walk { options_default with max_depth := 1 } (ascii "r")
          (1 + 1) []).Nodup) :=
  ⟨rfl, by decide!, by decide!,
    print_tree_shows_levels fs_walk { options_default with max_depth := 0 } 0 rfl 0 (ascii "r"),
    rfl, by decide!, by decide!,
    print_tree_shows_levels fs_walk { options_default with max_depth := 1 } 1 rfl 0 (ascii "r")⟩

/-- C16 fails as stated: in the directory `r` that holds the hidden directory `.h` with the
file `x`, and the file `a`, the entry `x` passes the hidden filter and is a qualifying entry
of `r/.h`, at depth 1; its only ancestor `.h` is a directory and not a symbolic link; and yet,
with hidden entries not shown and `dir_only` off, neither the walk with max depth 1 nor the
walk without a limit writes a line for it: `.h` is left out of the listing of `r` and is
never entered. -/
theorem entry_below_hidden_directory :
    fs_hidden.readdir (ascii "r/.h") = some [ascii ".", ascii "..", ascii "x"] ∧
    qualifies options_default.show_hidden (ascii "x") = true ∧
    qualifying_entry fs_hidden options_default (ascii "r/.h") (ascii "x") = true ∧
    is_directory fs_hidden (ascii "r/.h") = true ∧
    is_symlink fs_hidden (ascii "r/.h") = false ∧
    is_symlink fs_hidden (ascii "r") = false ∧
    ancestors_entered fs_hidden (ascii "r") [ascii ".h", ascii "x"] = true ∧
    options_default.dir_only = false ∧
    print_tree_wrapper fs_hidden { options_default with max_depth := 1 } 3 (ascii "r") =
      .ok [last_connector ++ ascii "a\n"] ∧
    print_tree_wrapper fs_hidden options_default 3 (ascii "r") =
      .ok [last_connector ++ ascii "a\n"] ∧
    main fs_hidden options_default 3 =
      .ok { status := 0, stdout := ascii "r\n" ++ (last_connector ++ ascii "a\n"),
            stderr := [] } := by
  refine ⟨by decide, by decide, by decide, by decide, by decide, by decide, by decide, rfl,
    by decide!, by decide!, by decide!⟩

/-- C16 (amended): with a max depth `N ≥ 0`, `print_tree` invoked at a depth above `N` writes
nothing. The walk from the starting path ends (with the limit for every fuel above `N + 1`,
without a limit for every fuel above the bound `h` on the nesting of real directories), and
its lines are, in order, one line for each entry of `shown_entries`. With the limit `N`, the
entry at depth `d` reached through a chain of `d + 1` names is among these iff `d ≤ N`, every
name of the chain, the entry's own and those of its ancestors, is a qualifying entry of the
directory that holds it, and every ancestor is a directory that is not a symbolic link; with
max depth -1 the same holds without the bound on `d`. When the names of every directory are
distinct no entry comes twice, so every such entry gets exactly one line. With `dir_only` off
a qualifying entry is an entry of a readable directory that passes the hidden filter. -/
theorem entry_gets_line (fs : FileSystem) (options : TreeOptions) (start : Str) :
    (∀ (N d : Nat), options.max_depth = (N : Int) → N < d →
      ∀ (fuel : Nat) (path : Str) (F : List Bool),
        print_tree fs options (fuel + 1) path F (d : Int) = .ok []) ∧
    (∀ (N : Nat), options.max_depth = (N : Int) → ∀ extra, ∃ lines,
      print_tree_wrapper fs options (N + 2 + extra) start = .ok lines ∧
      List.Forall₂ (is_line_of fs options start) (shown_entries fs options start (N + 1) [])
        lines ∧
      (∀ c, c ∈ shown_entries fs options start (N + 1) [] ↔
        (c ≠ [] ∧ c.length - 1 ≤ N ∧ qualifies_along fs options start c = true ∧
          ancestors_entered fs start c = true)) ∧
      ((∀ p names, fs.readdir p = some names → names.Nodup) →
        (shown_entries fs options start (N + 1) []).Nodup)) ∧
    (options.max_depth = -1 →
      ∀ h, nesting_bounded fs options.show_hidden h start = true → ∀ extra, ∃ lines,
        print_tree_wrapper fs options (h + 1 + extra) start = .ok lines ∧
        List.Forall₂ (is_line_of fs options start) (shown_entries fs options start (h + 1) [])
          lines ∧
        (∀ c, c ∈ shown_entries fs options start (h + 1) [] ↔
          (c ≠ [] ∧ qualifies_along fs options start c = true ∧
            ancestors_entered fs start c = true)) ∧
        ((∀ p names, fs.readdir p = some names → names.Nodup) →
          (shown_entries fs options start (h + 1) []).Nodup)) ∧
    (options.dir_only = false → ∀ dir name,
      (qualifying_entry fs options dir name = true ↔
        (∃ names, fs.readdir dir = some names ∧ name ∈ names) ∧
          qualifies options.show_hidden name = true)) := by
  refine ⟨?_, ?_, ?_, ?_⟩
  · intro N d hN hd fuel path F
    rw [print_tree_succ, hN]
    have hg : ((N : Int) != -1 && decide ((d : Int) > (N : Int))) = true := by
      have h1 : (N : Int) ≠ -1 := by omega
      have h2 : (d : Int) > (N : Int) := by omega
      simp [h1, h2]
    rw [if_pos hg]
  · intro N hN extra
    obtain ⟨lines, hrun, hlines⟩ := print_tree_limited_shown fs options N hN extra start
    refine ⟨lines, hrun, hlines, ?_, fun hdistinct =>
      shown_entries_nodup fs options start hdistinct _ _⟩
    intro c
    rw [mem_shown_entries_root]
    have hne : c ≠ [] ↔ 1 ≤ c.length := by
      cases c <;> simp
    rw [hne]
    constructor
    · rintro ⟨h1, h2, h3⟩
      exact ⟨h1, by omega, h3⟩
    · rintro ⟨h1, h2, h3⟩
      exact ⟨h1, by omega, h3⟩
  · intro hN h hb extra
    obtain ⟨lines, hrun, hlines⟩ := print_tree_unlimited_shown fs options hN h start hb extra
    refine ⟨lines, hrun, hlines, ?_, fun hdistinct =>
      shown_entries_nodup fs options start hdistinct _ _⟩
    intro c
    rw [mem_shown_entries_root]
    have hne : c ≠ [] ↔ 1 ≤ c.length := by
      cases c <;> simp
    rw [hne]
    constructor
    · rintro ⟨h1, _, h3⟩
      exact ⟨h1, h3⟩
    · rintro ⟨h1, h3, h4⟩
      exact ⟨h1, length_le_of_nesting_bounded fs options h start c hb h3 h4, h3, h4⟩
  · intro hd dir name
    unfold qualifying_entry
    cases hr : fs.readdir dir with
    | none => simp
    | some names => simp [hd]

theorem entry_gets_line_witness :
    ({ options_default with max_depth := 1 } : TreeOptions).max_depth = ((1 : Nat) : Int) ∧
    print_tree fs_walk { options_default with max_depth := 1 } (0 + 1) (ascii "r/sub/deep")
      [false, false, true] ((2 : Nat) : Int) = .ok [] ∧
    print_tree_wrapper fs_walk { options_default with max_depth := 1 } (1 + 2 + 0) (ascii "r") =
      .ok [
        blue ++ mid_connector ++ reset ++ ascii "lnk -> sub\n",
        blue ++ mid_connector ++ reset ++ ascii "sub\n",
        blue ++ (bar_segment ++ mid_connector) ++ reset ++ ascii "deep\n",
        bar_segment ++ last_connector ++ ascii "x\n",
        blue ++ mid_connector ++ reset ++ ascii "z\n",
        last_connector ++ ascii "file.txt\n"] ∧
    shown_entries fs_walk { options_default with max_depth := 1 } (ascii "r") (1 + 1) [] =
      [[ascii "lnk"], [ascii "sub"], [ascii "sub", ascii "deep"], [ascii "sub", ascii "x"],
        [ascii "z"], [ascii "file.txt"]] ∧
    (∃ lines,
      print_tree_wrapper fs_walk { options_default with max_depth := 1 } (1 + 2 + 0)
        (ascii "r") = .ok lines ∧
      List.Forall₂ (is_line_of fs_walk { options_default with max_depth := 1 } (ascii "r"))
        (shown_entries fs_walk { options_default with max_depth := 1 } (ascii "r") (1 + 1) [])
        lines ∧
      (∀ c, c ∈ shown_entries fs_walk { options_default with max_depth := 1 } (ascii "r")
          (1 + 1) [] ↔
        (c ≠ [] ∧ c.length - 1 ≤ 1 ∧
          qualifies_along fs_walk { options_default with max_depth := 1 } (ascii "r") c = true ∧
          ancestors_entered fs_walk (ascii "r") c = true)) ∧
      ((∀ p names, fs_walk.readdir p = some names → names.Nodup) →
        (shown_entries fs_walk { options_default with max_depth := 1 } (ascii "r")
          (1 + 1) []).Nodup)) ∧
    options_default.max_depth = -1 ∧
    nesting_bounded fs_walk options_default.show_hidden 2 (ascii "r") = true ∧
    print_tree_wrapper fs_walk options_default (2 + 1 + 0) (ascii "r") =
      .ok [
        blue ++ mid_connector ++ reset ++ ascii "lnk -> sub\n",
        blue ++ mid_connector ++ reset ++ ascii "sub\n",
        blue ++ (bar_segment ++ mid_connector) ++ reset ++ ascii "deep\n",
        bar_segment ++ bar_segment ++ last_connector ++ ascii "y\n",
        bar_segment ++ last_connector ++ ascii "x\n",
        blue ++ mid_connector ++ reset ++ ascii "z\n",
        last_connector ++ ascii "file.txt\n"] ∧
    shown_entries fs_walk options_default (ascii "r") (2 + 1) [] =
      [[ascii "lnk"], [ascii "sub"], [ascii "sub", ascii "deep"],
        [ascii "sub", ascii "deep", ascii "y"], [ascii "sub", ascii "x"],
        [ascii "z"], [ascii "file.txt"]] ∧
    (∃ lines,
      print_tree_wrapper fs_walk options_default (2 + 1 + 0) (ascii "r") = .ok lines ∧
      List.Forall₂ (is_line_of fs_walk options_default (ascii "r"))
        (shown_entries fs_walk options_default (ascii "r") (2 + 1) []) lines ∧
      (∀ c, c ∈ shown_entries fs_walk options_default (ascii "r") (2 + 1) [] ↔
        (c ≠ [] ∧ qualifies_along fs_walk options_default (ascii "r") c = true ∧
          ancestors_entered fs_walk (ascii "r") c = true)) ∧
      ((∀ p names, fs_walk.readdir p = some names → names.Nodup) →
        (shown_entries fs_walk options_default (ascii "r") (2 + 1) []).Nodup)) := by
  have h1 := entry_gets_line fs_walk { options_default with max_depth := 1 } (ascii "r")
  have h2 := entry_gets_line fs_walk options_default (ascii "r")
  exact ⟨rfl, h1.1 1 2 rfl (by decide) 0 _ _, by decide!, by decide!, h1.2.1 1 rfl 0, rfl,
    by decide!, by decide!, by decide!, h2.2.2.1 rfl 2 (by decide!) 0⟩

end Tree
